import Mathlib

set_option maxRecDepth 8000

/-!
A shallow embedding of `g2p.py` (KoG2P): Korean grapheme-to-phone conversion,
together with proofs about its phonological rewrite engine.

Modelling conventions:
* Python strings are `List Char`; Unicode code points (`ord`) are `Nat`.
* `re.sub(pat, rep, s)` for the literal (metacharacter-free) patterns used by
  the code is `subLit pat rep s`: leftmost, non-overlapping, replace-all.
* The handful of non-literal regexes in the source (`^oh`, `oh([# ]|$)`,
  `(\W+)\-`, `\W+$`, `^\-`, `-+`, `" $"`) each get a bespoke function whose
  behaviour matches the Python regex on the strings the program manipulates.
* Fallible Python code (IndexError in `add_phone_boundary`, the unbound
  `prono` in `phone2prono` on an empty rule table) is modelled with `Option`.
* The unbounded `while not identical` loop of `graph2prono` is modelled with a
  fuel parameter: `none` means "has not returned within `fuel` iterations", so
  `∀ fuel, ... = none` states that the Python loop never terminates.
-/

/-- Python `\w` (word character) restricted to the ASCII alphabet that phone
strings draw from: letters, digits and underscore. -/
def isWordChar (c : Char) : Bool := c.isAlphanum || c = '_'

/-- Fuel-indexed worker for `subLit`.  Every step consumes at least one
character, so fuel `s.length` always suffices. -/
def subLitGo (pat rep : List Char) : Nat → List Char → List Char
  | _, [] => []
  | 0, s => s
  | f+1, c :: cs =>
    if pat ≠ [] ∧ pat.isPrefixOf (c :: cs) then
      rep ++ subLitGo pat rep f (cs.drop (pat.length - 1))
    else
      c :: subLitGo pat rep f cs

/-- `re.sub(pat, rep, s)` for a literal pattern `pat`: leftmost,
non-overlapping, replace-all; scanning resumes after each replacement. -/
def subLit (pat rep s : List Char) : List Char := subLitGo pat rep s.length s

/-- The 19 onset codes of `graph2phone` (`ONS`). -/
def ONS : List (List Char) :=
  [['k','0'],['k','k'],['n','n'],['t','0'],['t','t'],['r','r'],['m','m'],
   ['p','0'],['p','p'],['s','0'],['s','s'],['o','h'],['c','0'],['c','c'],
   ['c','h'],['k','h'],['t','h'],['p','h'],['h','0']]

/-- The 21 nucleus codes of `graph2phone` (`NUC`). -/
def NUC : List (List Char) :=
  [['a','a'],['q','q'],['y','a'],['y','q'],['v','v'],['e','e'],['y','v'],
   ['y','e'],['o','o'],['w','a'],['w','q'],['w','o'],['y','o'],['u','u'],
   ['w','v'],['w','e'],['w','i'],['y','u'],['x','x'],['x','i'],['i','i']]

/-- The 28 coda codes of `graph2phone` (`COD`); index 0 is the empty coda. -/
def COD : List (List Char) :=
  [[],['k','f'],['k','k'],['k','s'],['n','f'],['n','c'],['n','h'],['t','f'],
   ['l','l'],['l','k'],['l','m'],['l','b'],['l','s'],['l','t'],['l','p'],
   ['l','h'],['m','f'],['p','f'],['p','s'],['s','0'],['s','s'],['o','h'],
   ['c','0'],['c','h'],['k','h'],['t','h'],['p','h'],['h','0']]

/-- `iONS = int(math.floor(df / 588)) + 1` with `df = c - 44032`. -/
def iONS (c : Nat) : Nat := (c - 44032) / 588 + 1

/-- `iNUC = int(math.floor((df % 588) / 28)) + 1`. -/
def iNUC (c : Nat) : Nat := ((c - 44032) % 588) / 28 + 1

/-- `iCOD = int((df % 588) % 28) + 1`. -/
def iCOD (c : Nat) : Nat := ((c - 44032) % 588) % 28 + 1

/-- `ONS[iONS - 1]`: the onset code of the Hangul syllable code point `c`. -/
def sylOns (c : Nat) : List Char := ONS.getD (iONS c - 1) []

/-- `NUC[iNUC - 1]`: the nucleus code of the Hangul syllable code point `c`. -/
def sylNuc (c : Nat) : List Char := NUC.getD (iNUC c - 1) []

/-- `COD[iCOD - 1]`: the coda code of the Hangul syllable code point `c`. -/
def sylCod (c : Nat) : List Char := COD.getD (iCOD c - 1) []

/-- The string appended for one Hangul syllable: `"-" + onset + nucleus +
coda` (an empty coda contributes nothing, matching `s3 = ""`). -/
def sylEmit (c : Nat) : List Char := '-' :: (sylOns c ++ sylNuc c ++ sylCod c)

/-- What `graph2phone`'s walk appends for one input code point, following
`check_char_type`: `'#'` for a space (code point 32), the decomposed syllable
for a Hangul code point in `[44032, 55203]`, nothing otherwise. -/
def charEmit (c : Nat) : List Char :=
  if c = 32 then ['#']
  else if 44032 ≤ c ∧ c ≤ 55203 then sylEmit c
  else []

/-- The literal pattern `"-oh"`. -/
def dashOh : List Char := ['-', 'o', 'h']

/-- The walk of `graph2phone`: append `charEmit` for each code point and apply
`re.sub("-(oh)", "-", phones)` after every character, exactly as the Python
loop does (also on iterations that append nothing). -/
def buildGo : List Nat → List Char → List Char
  | [], ph => ph
  | c :: cs, ph => buildGo cs (subLit dashOh ['-'] (ph ++ charEmit c))

/-- The phone string accumulated by `graph2phone`'s character walk. -/
def buildPhones (g : List Nat) : List Char := buildGo g []

/-- `re.sub("^oh", "", s)`: strip one leading `"oh"`. -/
def stripOhHead (s : List Char) : List Char :=
  if ['o','h'].isPrefixOf s then s.drop 2 else s

/-- `re.sub("-(oh)", "", s)`: delete every `"-oh"`. -/
def delDashOh (s : List Char) : List Char := subLit dashOh [] s

/-- `re.sub("oh-", "ng-", s)`. -/
def ohDashToNg (s : List Char) : List Char :=
  subLit ['o','h','-'] ['n','g','-'] s

/-- The match condition of `oh([# ]|$)` at the head of `c :: r`: an `"oh"`
followed by `'#'`, a space, or the end of the string. -/
def ohBdHere (c : Char) (r : List Char) : Prop :=
  c = 'o' ∧ r.head? = some 'h' ∧
    (r.tail.head? = some '#' ∨ r.tail.head? = some ' ' ∨ r.tail = [])

instance (c : Char) (r : List Char) : Decidable (ohBdHere c r) := by
  unfold ohBdHere
  infer_instance

/-- Fuel-indexed worker for `subOhBd`. -/
def subOhBdGo : Nat → List Char → List Char
  | _, [] => []
  | 0, s => s
  | f+1, c :: r =>
    if ohBdHere c r then 'n' :: 'g' :: subOhBdGo f r.tail.tail
    else c :: subOhBdGo f r

/-- `re.sub("oh([# ]|$)", "ng", s)`: each `"oh"` followed by `'#'`, a space or
the end of the string is replaced by `"ng"`; note the replacement is the
two-character literal `"ng"`, so the captured boundary character is consumed
and dropped. -/
def subOhBd (s : List Char) : List Char := subOhBdGo s.length s

/-- Remove the last `'-'` of a list (identity if there is none). -/
def remLastDash : List Char → List Char
  | [] => []
  | c :: cs =>
    if '-' ∈ cs then c :: remLastDash cs
    else if c = '-' then cs else c :: cs

/-- Effect of one leftmost match of `(\W+)\-` on a maximal non-word run `r`:
the regex matches iff `r` contains a `'-'` at an offset ≥ 1 (the group `\W+`
must be nonempty), greedily at the last such `'-'`, which is deleted while
the group is kept. -/
def runFix : List Char → List Char
  | [] => []
  | c :: rest => if '-' ∈ rest then c :: remLastDash rest else c :: rest

/-- Fuel-indexed worker for `sub332`; word characters are copied, each maximal
non-word run is processed by `runFix`, matching `re.sub(r"(\W+)\-", "\\1", s)`
scan order (the scan resumes after the processed run). -/
def sub332Go : Nat → List Char → List Char
  | _, [] => []
  | 0, s => s
  | f+1, c :: cs =>
    if isWordChar c then c :: sub332Go f cs
    else
      runFix ((c :: cs).takeWhile (fun x => !isWordChar x)) ++
        sub332Go f ((c :: cs).dropWhile (fun x => !isWordChar x))

/-- `re.sub(r"(\W+)\-", "\\1", s)`. -/
def sub332 (s : List Char) : List Char := sub332Go s.length s

/-- `re.sub(r"\W+$", "", s)`: strip the maximal trailing non-word run. -/
def stripTrailingW (s : List Char) : List Char :=
  (s.reverse.dropWhile (fun c => !isWordChar c)).reverse

/-- `re.sub(r"^\-", "", s)`: strip one leading `'-'`. -/
def stripDashHead (s : List Char) : List Char :=
  if s.head? = some '-' then s.tail else s

/-- `graph2phone`: the walk followed by the post-walk cleanup of lines
324-334 of `g2p.py`, in source order. -/
def graph2phone (g : List Nat) : List Char :=
  stripDashHead (stripTrailingW (sub332 (subOhBd (ohDashToNg
    (delDashOh (stripOhHead (buildPhones g)))))))

/-- `add_phone_boundary`: group the phone string into comma-terminated
two-character groups, passing `'-'` and `'#'` through (a space is skipped);
`none` models the Python IndexError when a marker is followed by fewer than
two characters. -/
def addBd : List Char → Option (List Char)
  | [] => some []
  | [_] => some []
  | '-' :: a :: b :: r => (addBd r).map (fun t => '-' :: a :: b :: ',' :: t)
  | ['-', _] => none
  | ' ' :: a :: b :: r => (addBd r).map (fun t => a :: b :: ',' :: t)
  | [' ', _] => none
  | '#' :: a :: b :: r => (addBd r).map (fun t => '#' :: a :: b :: ',' :: t)
  | ['#', _] => none
  | a :: b :: r => (addBd r).map (fun t => a :: b :: ',' :: t)

/-- The loop of `phone2prono`, carrying the Python variable `prono` (unset
before the first iteration, hence `Option`): `for pattern, replacement in
zip(rule_in, rule_out): phones = re.sub(...); prono = phones`. -/
def phone2pronoGo : List (List Char × List Char) → List Char →
    Option (List Char) → Option (List Char)
  | [], _, pr => pr
  | (p, q) :: rs, ph, _ => phone2pronoGo rs (subLit p q ph) (some (subLit p q ph))

/-- `phone2prono(phones, rule_in, rule_out)`; `none` models the Python
UnboundLocalError on `return prono` when the zipped rule table is empty. -/
def phone2prono (rin rout : List (List Char)) (ph : List Char) :
    Option (List Char) :=
  phone2pronoGo (rin.zip rout) ph none

/-- The left-to-right fold of single-rule rewrites over the zipped table. -/
def rulesApply (rin rout : List (List Char)) (ph : List Char) : List Char :=
  (rin.zip rout).foldl (fun s pr => subLit pr.1 pr.2 s) ph

/-- `re.sub(",", " ", s)`. -/
def commaToSpace (s : List Char) : List Char := subLit [','] [' '] s

/-- `re.sub(" ", ",", s)`. -/
def spaceToComma (s : List Char) : List Char := subLit [' '] [','] s

/-- `re.sub("#", "-", s)`. -/
def hashToDash (s : List Char) : List Char := subLit ['#'] ['-'] s

/-- `re.sub(" $", "", s)`: strip a single trailing space. -/
def stripOneTrailingSpace (s : List Char) : List Char :=
  if s.getLast? = some ' ' then s.dropLast else s

/-- `re.sub("-+", "-", s)`: collapse every run of hyphens to one. -/
def collapseDash (s : List Char) : List Char :=
  s.foldr (fun c acc => if c = '-' ∧ acc.head? = some '-' then acc else c :: acc) []

/-- `re.sub("-", "", s)`: delete every hyphen. -/
def delHyph (s : List Char) : List Char := subLit ['-'] [] s

/-- `re.sub(" ", ",", prono_prev + ",")`: the re-annotation at the top of the
convergence loop. -/
def annotate (s : List Char) : List Char := spaceToComma (s ++ [','])

/-- The normalization inside the convergence loop (lines 401-402):
commas to spaces, then strip one trailing space. -/
def normLoop (s : List Char) : List Char :=
  stripOneTrailingSpace (commaToSpace s)

/-- The one-time normalization before the loop (lines 385-388): commas to
spaces, strip one trailing space, word markers to hyphens, collapse hyphen
runs. -/
def preNorm (s : List Char) : List Char :=
  collapseDash (hashToDash (stripOneTrailingSpace (commaToSpace s)))

/-- One full annotate / rule pass / normalize iteration of the convergence
loop, for a nonempty rule table (where `phone2prono` is total). -/
def passT (rin rout : List (List Char)) (s : List Char) : List Char :=
  normLoop (rulesApply rin rout (annotate s))

/-- The `while not identical` loop of `graph2prono`, fuel-indexed: `none`
means the Python loop has not returned within `fuel` iterations (or the rule
table made `phone2prono` fail). -/
def graph2pronoLoop (rin rout : List (List Char)) : Nat → List Char →
    Option (List Char)
  | 0, _ => none
  | f+1, prev =>
    match phone2prono rin rout (annotate prev) with
    | none => none
    | some x =>
      if delHyph prev = delHyph (normLoop x) then some (delHyph (normLoop x))
      else graph2pronoLoop rin rout f (normLoop x)

/-- `graph2prono(graphs, rule_in, rule_out)`: build the phone string, annotate
phone boundaries, run one rule pass, normalize once, then iterate to the
fixed point. -/
def graph2prono (fuel : Nat) (rin rout : List (List Char)) (g : List Nat) :
    Option (List Char) :=
  match addBd (graph2phone g) with
  | none => none
  | some rbd =>
    match phone2prono rin rout rbd with
    | none => none
    | some pr0 => graph2pronoLoop rin rout fuel (preNorm pr0)

/-- `run_g2p(graph, rule)`: unpack the rule pair and convert. -/
def run_g2p (fuel : Nat) (rule : List (List Char) × List (List Char))
    (g : List Nat) : Option (List Char) :=
  graph2prono fuel rule.1 rule.2 g

/-- Modelled from the spec: the normalization §4.4 step 3 claims for every
iteration of the loop — replace commas with spaces, strip a single trailing
space, replace word markers with syllable-boundary markers, collapse runs of
syllable-boundary markers to one. -/
def normLoopSpec (s : List Char) : List Char :=
  collapseDash (hashToDash (stripOneTrailingSpace (commaToSpace s)))

/-- Modelled from the spec (claim C7's reading of the coda rewrite): `"oh"`
before `'#'`, a space or the end of the string becomes `"ng"` with the
following boundary/space character preserved unchanged. -/
def subOhBdSpec : List Char → List Char
  | 'o' :: 'h' :: '#' :: r => 'n' :: 'g' :: '#' :: subOhBdSpec r
  | 'o' :: 'h' :: ' ' :: r => 'n' :: 'g' :: ' ' :: subOhBdSpec r
  | ['o', 'h'] => ['n', 'g']
  | c :: r => c :: subOhBdSpec r
  | [] => []

/-- `n` copies of the phone code `"k0"`. -/
def kz : Nat → List Char
  | 0 => []
  | n+1 => 'k' :: '0' :: kz n

/-- `"k0" * n + " aa"`: the shape of the iterates produced by the growing
rule `k0 -> k0k0` on input `"가"`. -/
def repk (n : Nat) : List Char := kz n ++ [' ', 'a', 'a']

/-- `graph2prono` never returns, for any iteration bound, on the rule table
`[("k0", "k0k0")]` and input `"가"` (code point 44032): the fuel-indexed
model of the (uncapped) Python loop yields `none` at every fuel. -/
def g2pDiverges : Prop :=
  ∀ fuel, graph2prono fuel [['k','0']] [['k','0','k','0']] [44032] = none

/-- Invariant on the phone string during `graph2phone`: it is empty or starts
with a syllable-boundary marker or a word marker. -/
def headOk (s : List Char) : Prop :=
  s = [] ∨ s.head? = some '-' ∨ s.head? = some '#'

/-! ### Basic properties of `subLit` -/

theorem subLitGo_congr (pat rep : List Char) :
    ∀ (f g : Nat) (s : List Char), s.length ≤ f → s.length ≤ g →
      subLitGo pat rep f s = subLitGo pat rep g s := by
  intro f
  induction f with
  | zero =>
    intro g s hf _
    have hs : s = [] := List.length_eq_zero.mp (Nat.le_zero.mp hf)
    subst hs
    cases g <;> rfl
  | succ f ih =>
    intro g s hf hg
    cases s with
    | nil => cases g <;> rfl
    | cons c cs =>
      cases g with
      | zero => simp at hg
      | succ g' =>
        simp only [List.length_cons] at hf hg
        simp only [subLitGo]
        by_cases h : pat ≠ [] ∧ pat.isPrefixOf (c :: cs)
        · rw [if_pos h, if_pos h]
          refine congrArg (rep ++ ·) (ih g' _ ?_ ?_) <;>
            simp only [List.length_drop] <;> omega
        · rw [if_neg h, if_neg h]
          exact congrArg (c :: ·) (ih g' cs (by omega) (by omega))

theorem subLitGo_succ_cons (pat rep : List Char) (f : Nat) (c : Char)
    (cs : List Char) :
    subLitGo pat rep (f+1) (c :: cs) =
      if pat ≠ [] ∧ pat.isPrefixOf (c :: cs) then
        rep ++ subLitGo pat rep f (cs.drop (pat.length - 1))
      else c :: subLitGo pat rep f cs := rfl

theorem subLit_cons_pos {pat : List Char} (rep : List Char) {c : Char}
    {cs : List Char} (hne : pat ≠ []) (hpre : pat.isPrefixOf (c :: cs)) :
    subLit pat rep (c :: cs) = rep ++ subLit pat rep (cs.drop (pat.length - 1)) := by
  show subLitGo pat rep (cs.length + 1) (c :: cs) = _
  rw [subLitGo_succ_cons, if_pos ⟨hne, hpre⟩]
  exact congrArg (rep ++ ·)
    (subLitGo_congr pat rep cs.length _ _ (by simp only [List.length_drop]; omega)
      le_rfl)

theorem subLit_cons_neg {pat : List Char} (rep : List Char) {c : Char}
    {cs : List Char} (h : ¬ (pat ≠ [] ∧ pat.isPrefixOf (c :: cs))) :
    subLit pat rep (c :: cs) = c :: subLit pat rep cs := by
  show subLitGo pat rep (cs.length + 1) (c :: cs) = _
  rw [subLitGo_succ_cons, if_neg h]
  rfl

theorem isPrefixOf_pfx {l₁ l₂ : List Char} (h : l₁.isPrefixOf l₂) : l₁ <+: l₂ := by
  exact List.isPrefixOf_iff_prefix.mp h

theorem pfx_isPrefixOf {l₁ l₂ : List Char} (h : l₁ <+: l₂) : l₁.isPrefixOf l₂ := by
  exact List.isPrefixOf_iff_prefix.mpr h

theorem pfxInf {l₁ l₂ : List Char} (h : l₁ <+: l₂) : l₁ <:+: l₂ := by
  exact List.IsPrefix.isInfix h

theorem sfxInf {l₁ l₂ : List Char} (h : l₁ <:+ l₂) : l₁ <:+: l₂ := by
  exact List.IsSuffix.isInfix h

theorem subLit_eq_self {pat rep : List Char} :
    ∀ {s : List Char}, ¬ pat <:+: s → subLit pat rep s = s := by
  intro s
  induction s with
  | nil => intro _; rfl
  | cons c cs ih =>
    intro h
    have h1 : ¬ (pat ≠ [] ∧ pat.isPrefixOf (c :: cs)) := by
      rintro ⟨_, hp⟩
      exact h (pfxInf (isPrefixOf_pfx hp))
    have h2 : ¬ pat <:+: cs := fun hc => h (List.infix_cons_iff.mpr (Or.inr hc))
    rw [subLit_cons_neg _ h1, ih h2]

theorem subLit_single (a b : Char) :
    ∀ s : List Char, subLit [a] [b] s = s.map (fun c => if c = a then b else c) := by
  intro s
  induction s with
  | nil => rfl
  | cons c cs ih =>
    by_cases hc : c = a
    · subst hc
      rw [subLit_cons_pos _ (by simp) (by simp [List.isPrefixOf])]
      simpa using ih
    · have h1 : ¬ (([a] : List Char) ≠ [] ∧ List.isPrefixOf [a] (c :: cs)) := by
        rintro ⟨_, hp⟩
        rcases isPrefixOf_pfx hp with ⟨u, hu⟩
        simp only [List.cons_append, List.nil_append, List.cons.injEq] at hu
        exact hc hu.1.symm
      rw [subLit_cons_neg _ h1, ih]
      simp [hc]

theorem subLit_single_del (a : Char) :
    ∀ s : List Char, subLit [a] [] s = s.filter (fun c => c ≠ a) := by
  intro s
  induction s with
  | nil => rfl
  | cons c cs ih =>
    by_cases hc : c = a
    · subst hc
      rw [subLit_cons_pos _ (by simp) (by simp [List.isPrefixOf])]
      simpa using ih
    · have h1 : ¬ (([a] : List Char) ≠ [] ∧ List.isPrefixOf [a] (c :: cs)) := by
        rintro ⟨_, hp⟩
        rcases isPrefixOf_pfx hp with ⟨u, hu⟩
        simp only [List.cons_append, List.nil_append, List.cons.injEq] at hu
        exact hc hu.1.symm
      rw [subLit_cons_neg _ h1, ih]
      simp [hc]

theorem delHyph_eq_filter (s : List Char) :
    delHyph s = s.filter (fun c => c ≠ '-') := subLit_single_del '-' s

theorem dash_not_mem_delHyph (s : List Char) : '-' ∉ delHyph s := by
  rw [delHyph_eq_filter]
  simp

theorem delHyph_eq_self {s : List Char} (h : '-' ∉ s) : delHyph s = s := by
  rw [delHyph_eq_filter]
  apply List.filter_eq_self.mpr
  intro a ha
  simp only [ne_eq, decide_not, Bool.not_eq_eq_eq_not, Bool.not_true,
    decide_eq_false_iff_not]
  rintro rfl
  exact h ha

/-! ### Prefix / infix decomposition helpers -/

theorem prefix_append_cases {t a b : List Char} (h : t <+: a ++ b) :
    t <+: a ∨ ∃ t2, t = a ++ t2 ∧ t2 <+: b := by
  obtain ⟨r, hr⟩ := h
  rcases List.append_eq_append_iff.mp hr with ⟨a', ha, _⟩ | ⟨c', hc, hd⟩
  · exact Or.inl ⟨a', ha.symm⟩
  · exact Or.inr ⟨c', hc, r, hd.symm⟩

theorem prefix_append_take {t a b : List Char} {k : Nat} (h : t <+: a ++ b)
    (hk : t.length ≤ a.length + k) : t <+: a ++ b.take k := by
  rcases prefix_append_cases h with h1 | ⟨t2, rfl, h2⟩
  · exact h1.trans (List.prefix_append a (b.take k))
  · have hl : t2.length ≤ k := by
      simp only [List.length_append] at hk
      omega
    obtain ⟨u, rfl⟩ := h2
    refine (List.prefix_append_right_inj a).mpr ?_
    rw [List.take_append_eq_append_take, List.take_of_length_le hl]
    exact List.prefix_append t2 _

theorem infix_append_cases {t a b : List Char} (h : t <:+: a ++ b) :
    t <:+: a ∨ t <:+: b ∨
      ∃ t1 t2, t1 ++ t2 = t ∧ t1 ≠ [] ∧ t2 ≠ [] ∧ t1 <:+ a ∧ t2 <+: b := by
  induction a with
  | nil =>
    right; left; simpa using h
  | cons x a' ih =>
    rw [List.cons_append] at h
    rcases List.infix_cons_iff.mp h with hp | hi
    · rcases List.prefix_cons_iff.mp hp with rfl | ⟨t', rfl, ht'⟩
      · left; exact List.nil_infix
      · rcases prefix_append_cases ht' with h1 | ⟨t2, rfl, h2⟩
        · left
          exact pfxInf ((List.prefix_cons_inj x).mpr h1)
        · by_cases ht2 : t2 = []
          · subst ht2
            left
            simp only [List.append_nil]
            exact List.infix_rfl
          · right; right
            exact ⟨x :: a', t2, by simp, by simp, ht2, List.suffix_rfl, h2⟩
    · rcases ih hi with h1 | h1 | ⟨t1, t2, ht, hne1, hne2, hs, hp2⟩
      · left; exact List.infix_cons_iff.mpr (Or.inr h1)
      · right; left; exact h1
      · right; right
        exact ⟨t1, t2, ht, hne1, hne2, hs.trans (List.suffix_cons x a'), hp2⟩

theorem dashOh_infix_append {a b : List Char} (h : dashOh <:+: a ++ b) :
    dashOh <:+: a ∨ dashOh <:+: b ∨
      (['-'] <:+ a ∧ ['o','h'] <+: b) ∨ (['-','o'] <:+ a ∧ ['h'] <+: b) := by
  rcases infix_append_cases h with h1 | h1 | ⟨t1, t2, ht, hne1, hne2, hs, hp⟩
  · exact Or.inl h1
  · exact Or.inr (Or.inl h1)
  · rcases t1 with _ | ⟨c1, t1⟩
    · exact absurd rfl hne1
    rcases t1 with _ | ⟨c2, t1⟩
    · simp only [dashOh, List.cons_append, List.nil_append, List.cons.injEq] at ht
      obtain ⟨rfl, rfl⟩ := ht
      exact Or.inr (Or.inr (Or.inl ⟨hs, hp⟩))
    rcases t1 with _ | ⟨c3, t1⟩
    · simp only [dashOh, List.cons_append, List.nil_append, List.cons.injEq] at ht
      obtain ⟨rfl, rfl, rfl⟩ := ht
      exact Or.inr (Or.inr (Or.inr ⟨hs, hp⟩))
    · exfalso
      apply hne2
      have hlen := congrArg List.length ht
      simp only [List.length_append, List.length_cons, List.length_nil,
        dashOh] at hlen
      exact List.length_eq_zero.mp (by omega)

theorem subLit_append_left {pat rep a b : List Char}
    (h : ¬ pat <:+: a ++ b.take (pat.length - 1)) :
    subLit pat rep (a ++ b) = a ++ subLit pat rep b := by
  induction a with
  | nil => simp
  | cons x a' ih =>
    have hnp : ¬ (pat ≠ [] ∧ pat.isPrefixOf (x :: (a' ++ b))) := by
      rintro ⟨hne, hp⟩
      apply h
      have hp' : pat <+: (x :: a') ++ b := by
        rw [List.cons_append]
        exact isPrefixOf_pfx hp
      have hlen : pat.length ≤ (x :: a').length + (pat.length - 1) := by
        have h1 : 1 ≤ pat.length := List.length_pos.mpr hne
        simp only [List.length_cons]
        omega
      exact pfxInf (prefix_append_take hp' hlen)
    have hih : ¬ pat <:+: a' ++ b.take (pat.length - 1) := by
      intro hx
      apply h
      rw [List.cons_append]
      exact List.infix_cons_iff.mpr (Or.inr hx)
    calc subLit pat rep ((x :: a') ++ b) = subLit pat rep (x :: (a' ++ b)) := by
          rw [List.cons_append]
      _ = x :: subLit pat rep (a' ++ b) := subLit_cons_neg _ hnp
      _ = x :: (a' ++ subLit pat rep b) := by rw [ih hih]
      _ = (x :: a') ++ subLit pat rep b := by rw [List.cons_append]

/-! ### Claims C4 and C9: the syllable decomposer -/

/-- C4: for every code point `c` in `[44032, 55203]`, the decomposition
indices computed from `df = c - 44032` satisfy `0 ≤ onset < 19`,
`0 ≤ nucleus < 21`, `0 ≤ coda < 28` (so every alphabet-array access is in
bounds), and re-encoding `44032 + onset*588 + nucleus*28 + coda` equals `c`. -/
theorem c4_decomposition_bounds (c : Nat) (h1 : 44032 ≤ c) (h2 : c ≤ 55203) :
    iONS c - 1 < 19 ∧ iNUC c - 1 < 21 ∧ iCOD c - 1 < 28 ∧
      44032 + (iONS c - 1) * 588 + (iNUC c - 1) * 28 + (iCOD c - 1) = c := by
  unfold iONS iNUC iCOD
  omega

/-- Witness for C4 at the concrete code point 47932 (물). -/
theorem c4_witness :
    44032 ≤ 47932 ∧ 47932 ≤ 55203 ∧
      (iONS 47932 - 1 < 19 ∧ iNUC 47932 - 1 < 21 ∧ iCOD 47932 - 1 < 28 ∧
        44032 + (iONS 47932 - 1) * 588 + (iNUC 47932 - 1) * 28 +
          (iCOD 47932 - 1) = 47932) :=
  ⟨by norm_num, by norm_num, c4_decomposition_bounds 47932 (by norm_num) (by norm_num)⟩

/-- C9 counterexample: the syllable 물 (code point 47932, jongseong index 8)
decomposes with coda `"ll"`, not `"lb"` as the claim states; `"lb"` is the
code at coda index 11 (ㄼ), while ㄹ is index 8. -/
theorem c9_cx : sylCod 47932 = ['l','l'] ∧ sylCod 47932 ≠ ['l','b'] := by
  constructor
  · rfl
  · decide

/-- C9 (amended): 스 (49828) decomposes into onset `s0`, nucleus `xx` and no
coda; 물 (47932) into onset `mm`, nucleus `uu` and coda `ll`; accordingly the
Phone Stream Builder maps "스물" to `"s0xx-mmuull"`. -/
theorem c9_amended :
    sylOns 49828 = ['s','0'] ∧ sylNuc 49828 = ['x','x'] ∧ sylCod 49828 = [] ∧
      sylOns 47932 = ['m','m'] ∧ sylNuc 47932 = ['u','u'] ∧
      sylCod 47932 = ['l','l'] ∧
      graph2phone [49828, 47932] =
        ['s','0','x','x','-','m','m','u','u','l','l'] :=
  ⟨rfl, rfl, rfl, rfl, rfl, rfl, rfl⟩

/-! ### Claim C5: the Rule Engine is the fold of single-rule rewrites -/

theorem phone2pronoGo_eq_foldl :
    ∀ (rs : List (List Char × List Char)) (ph : List Char)
      (x : Option (List Char)), rs ≠ [] →
      phone2pronoGo rs ph x =
        some (rs.foldl (fun s pr => subLit pr.1 pr.2 s) ph) := by
  intro rs
  induction rs with
  | nil => intro ph x h; exact absurd rfl h
  | cons pq rs ih =>
    intro ph x _
    obtain ⟨p, q⟩ := pq
    by_cases hrs : rs = []
    · subst hrs; rfl
    · show phone2pronoGo rs (subLit p q ph) (some (subLit p q ph)) = _
      rw [ih _ _ hrs]
      rfl

theorem zip_ne_nil {rin rout : List (List Char)} (h1 : rin ≠ [])
    (h2 : rout ≠ []) : rin.zip rout ≠ [] := by
  cases rin with
  | nil => exact absurd rfl h1
  | cons a as =>
    cases rout with
    | nil => exact absurd rfl h2
    | cons b bs => simp [List.zip]

/-- C5 counterexample: on the empty rule table, `phone2prono` fails (Python
raises UnboundLocalError on `return prono`, modelled as `none`) instead of
returning the fold of zero rewrites, which would be the input itself. -/
theorem c5_cx :
    phone2prono [] [] ['a','a'] = none ∧
      rulesApply [] [] ['a','a'] = ['a','a'] ∧
      phone2prono [] [] ['a','a'] ≠ some (rulesApply [] [] ['a','a']) :=
  ⟨rfl, rfl, by decide⟩

/-- C5 (amended): for every phone string and every nonempty rule table, one
Rule Engine call equals the left-to-right fold of single-rule rewrites over
the zipped table: rule 1 rewrites all its non-overlapping match sites, then
rule 2 is applied to that result, and so on, each rule exactly once, an empty
replacement deleting the matched text; no rule is special-cased.  (With an
empty table the Python function errors instead of returning the input.) -/
theorem c5_fold (rin rout : List (List Char)) (ph : List Char)
    (h1 : rin ≠ []) (h2 : rout ≠ []) :
    phone2prono rin rout ph =
      some ((rin.zip rout).foldl (fun s pr => subLit pr.1 pr.2 s) ph) :=
  phone2pronoGo_eq_foldl _ ph none (zip_ne_nil h1 h2)

/-- Witness for C5 on a concrete one-rule table. -/
theorem c5_witness :
    (([['a','a']] : List (List Char)) ≠ [] ∧
      ([['q','q']] : List (List Char)) ≠ []) ∧
      phone2prono [['a','a']] [['q','q']] ['a','a',',','b','b',','] =
        some (([['a','a']].zip [['q','q']]).foldl
          (fun s pr => subLit pr.1 pr.2 s) ['a','a',',','b','b',',']) :=
  ⟨⟨by decide, by decide⟩, c5_fold _ _ _ (by decide) (by decide)⟩

/-! ### The convergence loop: characterization (claims C1, C2, C3) -/

theorem phone2prono_eq_pass {rin rout : List (List Char)}
    (hz : rin.zip rout ≠ []) (ph : List Char) :
    phone2prono rin rout ph = some (rulesApply rin rout ph) :=
  phone2pronoGo_eq_foldl _ ph none hz

theorem graph2pronoLoop_succ (rin rout : List (List Char))
    (hz : rin.zip rout ≠ []) (f : Nat) (prev : List Char) :
    graph2pronoLoop rin rout (f+1) prev =
      if delHyph prev = delHyph (passT rin rout prev) then
        some (delHyph (passT rin rout prev))
      else graph2pronoLoop rin rout f (passT rin rout prev) := by
  simp only [graph2pronoLoop]
  rw [phone2prono_eq_pass hz]
  rfl

theorem loopSome_iff (rin rout : List (List Char)) (hz : rin.zip rout ≠ []) :
    ∀ (fuel : Nat) (prev out : List Char),
      graph2pronoLoop rin rout fuel prev = some out ↔
        ∃ k, k < fuel ∧
          (∀ j < k, delHyph ((passT rin rout)^[j] prev) ≠
            delHyph ((passT rin rout)^[j+1] prev)) ∧
          delHyph ((passT rin rout)^[k] prev) =
            delHyph ((passT rin rout)^[k+1] prev) ∧
          out = delHyph ((passT rin rout)^[k+1] prev) := by
  intro fuel
  induction fuel with
  | zero =>
    intro prev out
    constructor
    · intro h; exact absurd h (by simp [graph2pronoLoop])
    · rintro ⟨k, hk, _⟩; omega
  | succ f ih =>
    intro prev out
    rw [graph2pronoLoop_succ rin rout hz f prev]
    by_cases hc : delHyph prev = delHyph (passT rin rout prev)
    · rw [if_pos hc]
      constructor
      · intro h
        refine ⟨0, Nat.succ_pos f, by omega, by simpa using hc, ?_⟩
        simpa using (Option.some.inj h).symm
      · rintro ⟨k, hk, hmin, hcv, hout⟩
        rcases Nat.eq_zero_or_pos k with rfl | hkpos
        · rw [hout]
          simp
        · exact absurd (by simpa using hc) (hmin 0 hkpos)
    · rw [if_neg hc]
      rw [ih (passT rin rout prev) out]
      constructor
      · rintro ⟨k, hk, hmin, hcv, hout⟩
        refine ⟨k+1, by omega, ?_, ?_, ?_⟩
        · intro j hj
          cases j with
          | zero => simpa using hc
          | succ j' =>
            have hx := hmin j' (by omega)
            simpa [Function.iterate_succ_apply] using hx
        · simpa [Function.iterate_succ_apply] using hcv
        · simpa [Function.iterate_succ_apply] using hout
      · rintro ⟨k, hk, hmin, hcv, hout⟩
        cases k with
        | zero => exact absurd (by simpa using hcv) hc
        | succ k' =>
          refine ⟨k', by omega, ?_, ?_, ?_⟩
          · intro j hj
            have hx := hmin (j+1) (by omega)
            simpa [Function.iterate_succ_apply] using hx
          · simpa [Function.iterate_succ_apply] using hcv
          · simpa [Function.iterate_succ_apply] using hout

/-- C1: for a nonempty rule table, the Convergence Driver's loop returns
within `fuel` iterations exactly when two successive normalized passes agree
after deleting every syllable-boundary marker `'-'` from both (at the first
such pair of passes), the value returned is the later pass's result with all
remaining `'-'` deleted, and while successive passes differ modulo `'-'` it
re-annotates the newer result and runs another full rule pass (the iterates
are `passT^[j]`). -/
theorem c1_loop_characterization (rin rout : List (List Char))
    (h1 : rin ≠ []) (h2 : rout ≠ []) (fuel : Nat) (prev out : List Char) :
    graph2pronoLoop rin rout fuel prev = some out ↔
      ∃ k, k < fuel ∧
        (∀ j < k, delHyph ((passT rin rout)^[j] prev) ≠
          delHyph ((passT rin rout)^[j+1] prev)) ∧
        delHyph ((passT rin rout)^[k] prev) =
          delHyph ((passT rin rout)^[k+1] prev) ∧
        out = delHyph ((passT rin rout)^[k+1] prev) :=
  loopSome_iff rin rout (zip_ne_nil h1 h2) fuel prev out

/-- Witness for C1: with the identity-like table `aa -> aa` starting from
`"aa"`, the loop converges in its first iteration. -/
theorem c1_witness :
    (([['a','a']] : List (List Char)) ≠ [] ∧
      ([['a','a']] : List (List Char)) ≠ []) ∧
      (graph2pronoLoop [['a','a']] [['a','a']] 1 ['a','a'] = some ['a','a'] ↔
        ∃ k, k < 1 ∧
          (∀ j < k, delHyph ((passT [['a','a']] [['a','a']])^[j] ['a','a']) ≠
            delHyph ((passT [['a','a']] [['a','a']])^[j+1] ['a','a'])) ∧
          delHyph ((passT [['a','a']] [['a','a']])^[k] ['a','a']) =
            delHyph ((passT [['a','a']] [['a','a']])^[k+1] ['a','a']) ∧
          ['a','a'] = delHyph ((passT [['a','a']] [['a','a']])^[k+1] ['a','a'])) :=
  ⟨⟨by decide, by decide⟩,
    c1_loop_characterization _ _ (by decide) (by decide) 1 ['a','a'] ['a','a']⟩

/-- C2 counterexample: with rule table `k0 -> -k0` on input "가" (44032) the
driver returns `"k0 aa"`, but one more annotate-rules-normalize pass applied
to that output yields `"-k0 aa"`, not `"k0 aa"`: the returned string is not a
true fixed point of the pass function, only equal to the previous iterate
modulo boundary markers. -/
theorem c2_cx :
    graph2prono 1 [['k','0']] [['-','k','0']] [44032] =
        some ['k','0',' ','a','a'] ∧
      passT [['k','0']] [['-','k','0']] ['k','0',' ','a','a'] =
        ['-','k','0',' ','a','a'] ∧
      passT [['k','0']] [['-','k','0']] ['k','0',' ','a','a'] ≠
        ['k','0',' ','a','a'] :=
  ⟨by decide, by decide, by decide⟩

/-- C2 (amended): when the driver terminates with output `p`, then `p` is the
hyphen-deletion of some final iterate `q`, and applying one more pass to `q`
returns `p` again after hyphen deletion; the loop's stopping condition is a
fixed point only modulo deleting the boundary marker `'-'`, of the final
iterate rather than of `p` itself. -/
theorem c2_fixed_point_mod_hyphens (rin rout : List (List Char))
    (h1 : rin ≠ []) (h2 : rout ≠ []) (fuel : Nat) (prev out : List Char)
    (h : graph2pronoLoop rin rout fuel prev = some out) :
    ∃ q, out = delHyph q ∧ delHyph (passT rin rout q) = out := by
  rcases (loopSome_iff rin rout (zip_ne_nil h1 h2) fuel prev out).mp h with
    ⟨k, _, _, hcv, hout⟩
  refine ⟨(passT rin rout)^[k] prev, ?_, ?_⟩
  · rw [hout, ← hcv]
  · rw [← Function.iterate_succ_apply' (passT rin rout) k prev, ← hout]

/-- Witness for C2 on the rule table `k0 -> -k0` and iterate `"-k0 aa"`. -/
theorem c2_witness :
    (([['k','0']] : List (List Char)) ≠ [] ∧
      ([['-','k','0']] : List (List Char)) ≠ [] ∧
      graph2pronoLoop [['k','0']] [['-','k','0']] 1 ['-','k','0',' ','a','a'] =
        some ['k','0',' ','a','a']) ∧
      ∃ q, (['k','0',' ','a','a'] : List Char) = delHyph q ∧
        delHyph (passT [['k','0']] [['-','k','0']] q) = ['k','0',' ','a','a'] :=
  ⟨⟨by decide, by decide, by decide⟩,
    c2_fixed_point_mod_hyphens [['k','0']] [['-','k','0']] (by decide)
      (by decide) 1 ['-','k','0',' ','a','a'] ['k','0',' ','a','a'] (by decide)⟩

theorem hashToDash_eq_self {s : List Char} (h : '#' ∉ s) : hashToDash s = s := by
  unfold hashToDash
  rw [subLit_single]
  have hx : ∀ a ∈ s, (if a = '#' then '-' else a) = a := by
    intro a ha
    by_cases he : a = '#'
    · exact absurd (he ▸ ha) h
    · exact if_neg he
  rw [List.map_congr_left hx, List.map_id']

theorem collapseDash_eq_self {s : List Char} (h : ¬ ['-','-'] <:+: s) :
    collapseDash s = s := by
  induction s with
  | nil => rfl
  | cons c cs ih =>
    have hcs : ¬ ['-','-'] <:+: cs := fun hx =>
      h (List.infix_cons_iff.mpr (Or.inr hx))
    show (if c = '-' ∧ (collapseDash cs).head? = some '-' then collapseDash cs
      else c :: collapseDash cs) = c :: cs
    rw [ih hcs]
    by_cases hc : c = '-' ∧ cs.head? = some '-'
    · exfalso
      apply h
      obtain ⟨rfl, hh⟩ := hc
      cases cs with
      | nil => simp at hh
      | cons d t =>
        simp only [List.head?_cons, Option.some.injEq] at hh
        subst hh
        exact pfxInf ⟨t, rfl⟩
    · rw [if_neg hc]

/-- C3 counterexample: inside the loop the normalization (lines 400-402 of
`g2p.py`) does not replace word markers or collapse hyphen runs — it differs
from the spec's step-3 normalization already on `",#,"`; consequently a `'#'`
introduced by a rule during the loop survives into the driver's output, as
with the table `qq -> #`, `aa -> qq` on input "가". -/
theorem c3_cx :
    normLoop [',','#',','] ≠ normLoopSpec [',','#',','] ∧
      graph2prono 4 [['q','q'],['a','a']] [['#'],['q','q']] [44032] =
        some ['k','0',' ','#'] :=
  ⟨by decide, by decide⟩

/-- C3 (amended): in every iteration of the loop the normalization after the
rule pass replaces commas with spaces and strips a single trailing space
only; word-marker replacement and hyphen-run collapsing happen solely in the
pre-loop normalization, so the loop's normalization agrees with the claimed
full normalization exactly on strings whose loop-normal form has no `'#'`
and no hyphen run `"--"`. -/
theorem c3_amended (s : List Char) (h1 : '#' ∉ normLoop s)
    (h2 : ¬ ['-','-'] <:+: normLoop s) : normLoopSpec s = normLoop s := by
  show collapseDash (hashToDash (normLoop s)) = normLoop s
  rw [hashToDash_eq_self h1, collapseDash_eq_self h2]

/-- Witness for C3 on the hash-free, run-free string `"aa,bb,"`. -/
theorem c3_witness :
    ('#' ∉ normLoop ['a','a',',','b','b',','] ∧
      ¬ ['-','-'] <:+: normLoop ['a','a',',','b','b',',']) ∧
      normLoopSpec ['a','a',',','b','b',','] =
        normLoop ['a','a',',','b','b',','] :=
  ⟨⟨by decide, by decide⟩, c3_amended _ (by decide) (by decide)⟩

/-! ### Claim C6: the returned string contains no boundary markers -/

theorem loopSome_delHyph :
    ∀ (fuel : Nat) (rin rout : List (List Char)) (prev out : List Char),
      graph2pronoLoop rin rout fuel prev = some out → ∃ x, out = delHyph x := by
  intro fuel
  induction fuel with
  | zero =>
    intro rin rout prev out h
    exact absurd h (by simp [graph2pronoLoop])
  | succ f ih =>
    intro rin rout prev out h
    simp only [graph2pronoLoop] at h
    split at h
    · exact absurd h (by simp)
    · split at h
      · exact ⟨_, (Option.some.inj h).symm⟩
      · exact ih _ _ _ _ h

theorem g2pSome_delHyph (fuel : Nat) (rin rout : List (List Char))
    (g : List Nat) (out : List Char)
    (h : graph2prono fuel rin rout g = some out) : ∃ x, out = delHyph x := by
  unfold graph2prono at h
  split at h
  · exact absurd h (by simp)
  · split at h
    · exact absurd h (by simp)
    · exact loopSome_delHyph fuel rin rout _ out h

/-- C6 counterexample: on "스물" the phone stream `"s0xx-mmuull"` contains a
syllable boundary `'-'`, but the conversion entry point returns
`"s0 xx mm uu ll"`, which contains no `'-'` at all: line 406 deletes every
remaining marker instead of rendering boundaries as `'-'`. -/
theorem c6_cx :
    '-' ∈ graph2phone [49828, 47932] ∧
      graph2prono 2 [['z','z']] [['z','z']] [49828, 47932] =
        some ['s','0',' ','x','x',' ','m','m',' ','u','u',' ','l','l'] ∧
      '-' ∉ (['s','0',' ','x','x',' ','m','m',' ','u','u',' ','l','l'] :
        List Char) :=
  ⟨by decide, by decide, by decide⟩

/-- C6 (amended): for every rule table and every grapheme input on which the
conversion entry point (`run_g2p` / `graph2prono`) returns, the returned
string contains no `'-'` whatsoever: all syllable- and word-boundary markers
are deleted by the final `re.sub("-", "", ...)`, not rendered as `'-'`. -/
theorem c6_no_dash_in_output (fuel : Nat) (rin rout : List (List Char))
    (g : List Nat) (out : List Char)
    (h : graph2prono fuel rin rout g = some out) : '-' ∉ out := by
  obtain ⟨x, rfl⟩ := g2pSome_delHyph fuel rin rout g out h
  exact dash_not_mem_delHyph x

/-- Witness for C6 on "스물" with an inert one-rule table. -/
theorem c6_witness :
    graph2prono 2 [['z','z']] [['z','z']] [49828, 47932] =
        some ['s','0',' ','x','x',' ','m','m',' ','u','u',' ','l','l'] ∧
      '-' ∉ (['s','0',' ','x','x',' ','m','m',' ','u','u',' ','l','l'] :
        List Char) :=
  ⟨by decide,
    c6_no_dash_in_output 2 [['z','z']] [['z','z']] [49828, 47932] _ (by decide)⟩

/-! ### Claim C8: the loop has no iteration cap and can run forever -/

theorem kz_two_mul (n : Nat) :
    kz (2 * (n+1)) = 'k' :: '0' :: 'k' :: '0' :: kz (2 * n) := by
  rw [show 2 * (n+1) = 2*n + 1 + 1 by ring]
  rfl

theorem kz_map (f : Char → Char) (hk : f 'k' = 'k') (h0 : f '0' = '0') :
    ∀ n, (kz n).map f = kz n := by
  intro n
  induction n with
  | zero => rfl
  | succ n ih => simp [kz, hk, h0, ih]

theorem kz_no_dash : ∀ n, '-' ∉ kz n := by
  intro n
  induction n with
  | zero => simp [kz]
  | succ n ih =>
    simp only [kz, List.mem_cons]
    push_neg
    exact ⟨by decide, by decide, ih⟩

theorem kz_length : ∀ n, (kz n).length = 2 * n := by
  intro n
  induction n with
  | zero => rfl
  | succ n ih =>
    simp only [kz, List.length_cons, ih]
    omega

theorem subLit_k0_kz : ∀ n,
    subLit ['k','0'] ['k','0','k','0'] (kz n ++ [',','a','a',',']) =
      kz (2*n) ++ [',','a','a',','] := by
  intro n
  induction n with
  | zero => decide
  | succ n ih =>
    show subLit _ _ ('k' :: '0' :: (kz n ++ [',','a','a',','])) = _
    rw [subLit_cons_pos _ (by decide) (by simp [List.isPrefixOf])]
    simp only [List.length_cons, List.length_nil, List.drop_succ_cons,
      List.drop_zero]
    rw [ih, kz_two_mul n]
    simp

theorem annotate_repk (n : Nat) :
    annotate (repk n) = kz n ++ [',','a','a',','] := by
  unfold annotate repk spaceToComma
  rw [subLit_single, List.append_assoc, List.map_append,
    kz_map _ (by decide) (by decide)]
  exact congrArg (kz n ++ ·) (by decide)

theorem normLoop_kz (n : Nat) :
    normLoop (kz n ++ [',','a','a',',']) = repk n := by
  unfold normLoop commaToSpace
  rw [subLit_single, List.map_append, kz_map _ (by decide) (by decide)]
  rw [show (([',','a','a',','] : List Char)).map
      (fun c => if c = ',' then ' ' else c) = [' ','a','a',' '] by decide]
  unfold stripOneTrailingSpace
  rw [show kz n ++ [' ','a','a',' '] = (kz n ++ [' ','a','a']) ++ [' '] by simp]
  rw [List.getLast?_concat, if_pos rfl, List.dropLast_concat]
  rfl

theorem pass_repk (n : Nat) :
    passT [['k','0']] [['k','0','k','0']] (repk n) = repk (2*n) := by
  unfold passT
  rw [annotate_repk]
  rw [show rulesApply [['k','0']] [['k','0','k','0']]
      (kz n ++ [',','a','a',',']) =
      subLit ['k','0'] ['k','0','k','0'] (kz n ++ [',','a','a',',']) from rfl]
  rw [subLit_k0_kz, normLoop_kz]

theorem delHyph_repk (n : Nat) : delHyph (repk n) = repk n := by
  apply delHyph_eq_self
  unfold repk
  intro hm
  rcases List.mem_append.mp hm with h | h
  · exact kz_no_dash n h
  · exact absurd h (by decide)

theorem repk_ne {n : Nat} (hn : 1 ≤ n) : repk n ≠ repk (2*n) := by
  intro h
  have hl := congrArg List.length h
  simp only [repk, List.length_append, kz_length] at hl
  omega

theorem loop_repk_none : ∀ (fuel n : Nat), 1 ≤ n →
    graph2pronoLoop [['k','0']] [['k','0','k','0']] fuel (repk n) = none := by
  intro fuel
  induction fuel with
  | zero => intro n _; rfl
  | succ f ih =>
    intro n hn
    rw [graph2pronoLoop_succ _ _ (by decide) f (repk n), pass_repk n,
      delHyph_repk, delHyph_repk, if_neg (repk_ne hn)]
    exact ih (2*n) (by omega)

theorem g2p_k0_diverges :
    ∀ fuel, graph2prono fuel [['k','0']] [['k','0','k','0']] [44032] = none := by
  intro fuel
  have h1 : addBd (graph2phone [44032]) = some ['k','0',',','a','a',','] := by
    decide
  have h2 : phone2prono [['k','0']] [['k','0','k','0']]
      ['k','0',',','a','a',','] = some ['k','0','k','0',',','a','a',','] := by
    decide
  have h3 : preNorm ['k','0','k','0',',','a','a',','] = repk 2 := by decide
  unfold graph2prono
  simp only [h1, h2, h3]
  exact loop_repk_none fuel 2 (by omega)

/-- C8 counterexample: on the rule table `k0 -> k0k0` and input "가", the
Convergence Driver never returns, for any iteration bound: each pass doubles
the number of `k0` tokens, so two successive passes are never equal modulo
boundary markers; the source imposes no iteration cap and no "rule
convergence exceeded" error exists. -/
theorem c8_cx : g2pDiverges := g2p_k0_diverges

/-- C8 (amended): the Convergence Driver's loop has no iteration cap: there
is a (nonempty) rule table and an input on which the loop runs forever — the
fuel-indexed model of the uncapped `while` loop returns `none` for every
fuel — rather than stopping with a distinct "rule convergence exceeded"
error. -/
theorem c8_amended :
    ∃ (rin rout : List (List Char)) (g : List Nat),
      rin ≠ [] ∧ rout ≠ [] ∧ ∀ fuel, graph2prono fuel rin rout g = none :=
  ⟨[['k','0']], [['k','0','k','0']], [44032], by decide, by decide,
    g2p_k0_diverges⟩

/-! ### Claim C7: the coda velar-nasal rewrite -/

theorem subOhBdGo_congr :
    ∀ (f g : Nat) (s : List Char), s.length ≤ f → s.length ≤ g →
      subOhBdGo f s = subOhBdGo g s := by
  intro f
  induction f with
  | zero =>
    intro g s hf _
    have hs : s = [] := List.length_eq_zero.mp (Nat.le_zero.mp hf)
    subst hs
    cases g <;> rfl
  | succ f ih =>
    intro g s hf hg
    cases s with
    | nil => cases g <;> rfl
    | cons c r =>
      cases g with
      | zero => simp at hg
      | succ g' =>
        simp only [List.length_cons] at hf hg
        simp only [subOhBdGo]
        by_cases h : ohBdHere c r
        · rw [if_pos h, if_pos h]
          refine congrArg (fun t => 'n' :: 'g' :: t) (ih g' _ ?_ ?_) <;>
            · have h1 : r.tail.tail.length ≤ r.length := by
                simp only [List.length_tail]
                omega
              omega
        · rw [if_neg h, if_neg h]
          exact congrArg (c :: ·) (ih g' r (by omega) (by omega))

theorem subOhBdGo_succ_cons (f : Nat) (c : Char) (r : List Char) :
    subOhBdGo (f+1) (c :: r) =
      if ohBdHere c r then 'n' :: 'g' :: subOhBdGo f r.tail.tail
      else c :: subOhBdGo f r := rfl

theorem subOhBd_cons_pos {c : Char} {r : List Char} (h : ohBdHere c r) :
    subOhBd (c :: r) = 'n' :: 'g' :: subOhBd r.tail.tail := by
  show subOhBdGo (r.length + 1) (c :: r) = _
  rw [subOhBdGo_succ_cons, if_pos h]
  refine congrArg (fun t => 'n' :: 'g' :: t) (subOhBdGo_congr r.length _ _ ?_ le_rfl)
  simp only [List.length_tail]
  omega

theorem subOhBd_cons_neg {c : Char} {r : List Char} (h : ¬ ohBdHere c r) :
    subOhBd (c :: r) = c :: subOhBd r := by
  show subOhBdGo (r.length + 1) (c :: r) = _
  rw [subOhBdGo_succ_cons, if_neg h]
  rfl

theorem subOhBd_append : ∀ (n : Nat) (u v : List Char), u.length ≤ n →
    v.head? = some 'o' → ¬ ['o','h'] <:+ u →
    subOhBd (u ++ v) = subOhBd u ++ subOhBd v := by
  intro n
  induction n with
  | zero =>
    intro u v hlen _ _
    have hu : u = [] := List.length_eq_zero.mp (Nat.le_zero.mp hlen)
    subst hu
    rfl
  | succ n ih =>
    intro u v hlen hv hu
    rcases u with _ | ⟨c, u'⟩
    · rfl
    · by_cases hm : ohBdHere c (u' ++ v)
      · obtain ⟨rfl, hh, hthird⟩ := hm
        rcases u' with _ | ⟨d, u''⟩
        · simp only [List.nil_append] at hh
          rw [hv] at hh
          exact absurd (Option.some.inj hh) (by decide)
        · simp only [List.cons_append, List.head?_cons, Option.some.injEq] at hh
          subst hh
          simp only [List.cons_append, List.tail_cons] at hthird
          rcases u'' with _ | ⟨e, u'''⟩
          · simp only [List.nil_append] at hthird
            rcases hthird with h | h | h
            · rw [hv] at h; exact absurd (Option.some.inj h) (by decide)
            · rw [hv] at h; exact absurd (Option.some.inj h) (by decide)
            · rw [h] at hv; exact absurd hv (by simp)
          · simp only [List.cons_append, List.head?_cons, Option.some.injEq] at hthird
            have he : e = '#' ∨ e = ' ' := by
              rcases hthird with h | h | h
              · exact Or.inl h
              · exact Or.inr h
              · exact absurd h (by simp)
            have hcat : ohBdHere 'o' (('h' :: e :: u''') ++ v) := by
              refine ⟨rfl, by simp, ?_⟩
              rcases he with rfl | rfl
              · left; simp
              · right; left; simp
            have hsta : ohBdHere 'o' ('h' :: e :: u''') := by
              refine ⟨rfl, by simp, ?_⟩
              rcases he with rfl | rfl
              · left; simp
              · right; left; simp
            rw [show ('o' :: 'h' :: e :: u''') ++ v =
              'o' :: (('h' :: e :: u''') ++ v) by simp]
            rw [subOhBd_cons_pos hcat, subOhBd_cons_pos hsta]
            simp only [List.cons_append, List.tail_cons]
            have hlen' : u'''.length ≤ n := by
              simp only [List.length_cons] at hlen
              omega
            have hu' : ¬ ['o','h'] <:+ u''' := by
              intro hx
              exact hu (hx.trans ⟨['o','h',e], rfl⟩)
            rw [ih u''' v hlen' hv hu']
      · have hm' : ¬ ohBdHere c u' := by
          rintro ⟨rfl, hh, hthird⟩
          apply hm
          rcases u' with _ | ⟨d, u''⟩
          · simp at hh
          · simp only [List.head?_cons, Option.some.injEq] at hh
            subst hh
            refine ⟨rfl, by simp, ?_⟩
            simp only [List.tail_cons] at hthird
            rcases hthird with h | h | h
            · rcases u'' with _ | ⟨e, u'''⟩
              · simp at h
              · simp only [List.head?_cons, Option.some.injEq] at h
                subst h
                left; simp
            · rcases u'' with _ | ⟨e, u'''⟩
              · simp at h
              · simp only [List.head?_cons, Option.some.injEq] at h
                subst h
                right; left; simp
            · exfalso
              apply hu
              subst h
              exact List.suffix_rfl
        rw [List.cons_append, subOhBd_cons_neg hm, subOhBd_cons_neg hm']
        have hlen' : u'.length ≤ n := by
          simp only [List.length_cons] at hlen
          omega
        rw [ih u' v hlen' hv (fun hx => hu (hx.trans (List.suffix_cons c u')))]
        simp

theorem ohDash_append : ∀ (n : Nat) (u v : List Char), u.length ≤ n →
    v.head? = some 'o' →
    ohDashToNg (u ++ v) = ohDashToNg u ++ ohDashToNg v := by
  intro n
  induction n with
  | zero =>
    intro u v hlen _
    have hu : u = [] := List.length_eq_zero.mp (Nat.le_zero.mp hlen)
    subst hu
    rfl
  | succ n ih =>
    intro u v hlen hv
    rcases u with _ | ⟨c, u'⟩
    · rfl
    · by_cases hm : (['o','h','-'] : List Char).isPrefixOf (c :: (u' ++ v))
      · obtain ⟨w, hw⟩ := isPrefixOf_pfx hm
        simp only [List.cons_append, List.nil_append, List.cons.injEq] at hw
        obtain ⟨rfl, hw⟩ := hw
        rcases u' with _ | ⟨d, u''⟩
        · simp only [List.nil_append] at hw
          rw [← hw] at hv
          simp only [List.head?_cons, Option.some.injEq] at hv
          exact absurd hv (by decide)
        · simp only [List.cons_append, List.cons.injEq] at hw
          obtain ⟨hd, hw⟩ := hw
          subst hd
          rcases u'' with _ | ⟨e, u'''⟩
          · simp only [List.nil_append] at hw
            rw [← hw] at hv
            simp only [List.head?_cons, Option.some.injEq] at hv
            exact absurd hv (by decide)
          · simp only [List.cons_append, List.cons.injEq] at hw
            obtain ⟨he, hw⟩ := hw
            subst he
            unfold ohDashToNg
            rw [show ('o' :: 'h' :: '-' :: u''') ++ v =
              'o' :: (('h' :: '-' :: u''') ++ v) by simp]
            rw [subLit_cons_pos _ (by decide) (by simp [List.isPrefixOf]),
              subLit_cons_pos _ (by decide) (by simp [List.isPrefixOf])]
            simp only [List.length_cons, List.length_nil, List.cons_append,
              List.drop_succ_cons, List.drop_zero]
            have hlen' : u'''.length ≤ n := by
              simp only [List.length_cons] at hlen
              omega
            have hx := ih u''' v hlen' hv
            unfold ohDashToNg at hx
            rw [hx]
            simp
      · have hm' : ¬ (['o','h','-'] : List Char).isPrefixOf (c :: u') := by
          intro hx
          apply hm
          obtain ⟨w, hw⟩ := isPrefixOf_pfx hx
          apply pfx_isPrefixOf
          exact ⟨w ++ v, by rw [← List.append_assoc, hw, List.cons_append]⟩
        rw [List.cons_append]
        unfold ohDashToNg
        rw [subLit_cons_neg _ (by rintro ⟨_, hp⟩; exact hm hp),
          subLit_cons_neg _ (by rintro ⟨_, hp⟩; exact hm' hp)]
        have hlen' : u'.length ≤ n := by
          simp only [List.length_cons] at hlen
          omega
        have hx := ih u' v hlen' hv
        unfold ohDashToNg at hx
        rw [hx]
        simp

/-- C7 counterexample: the rewrite of syllable-final `"oh"` before a word
marker deletes the marker: `subOhBd "oh#aa" = "ngaa"` (the `'#'` is gone),
unlike the spec-modelled boundary-preserving rewrite, which gives `"ng#aa"`;
end-to-end, `graph2phone` on "강 가" yields `"k0aang-k0aa"`, the `'#'`
between the words having been consumed by the rewrite. -/
theorem c7_cx :
    subOhBd ['o','h','#','a','a'] = ['n','g','a','a'] ∧
      subOhBdSpec ['o','h','#','a','a'] = ['n','g','#','a','a'] ∧
      subOhBd ['o','h','#','a','a'] ≠ subOhBdSpec ['o','h','#','a','a'] ∧
      graph2phone [44053, 32, 44032] =
        ['k','0','a','a','n','g','-','k','0','a','a'] :=
  ⟨rfl, rfl, by decide, rfl⟩

/-- C7 (amended): in the post-walk cleanup, every occurrence of `"oh"` in
coda position followed by a syllable-boundary `'-'` is rewritten to `"ng"`
with the `'-'` preserved (line 328); every occurrence followed by `'#'`, a
space, or the end of the string is rewritten to `"ng"` with the following
boundary/space character deleted (line 329: the replacement `"ng"` drops the
captured character).  `u` is the already-scanned text (which must not end in
a pending `"oh"`). -/
theorem c7_amended (u v : List Char) (hu : ¬ ['o','h'] <:+ u) :
    subOhBd (u ++ 'o' :: 'h' :: '#' :: v) =
      subOhBd u ++ 'n' :: 'g' :: subOhBd v ∧
    subOhBd (u ++ 'o' :: 'h' :: ' ' :: v) =
      subOhBd u ++ 'n' :: 'g' :: subOhBd v ∧
    subOhBd (u ++ ['o','h']) = subOhBd u ++ ['n','g'] ∧
    ohDashToNg (u ++ 'o' :: 'h' :: '-' :: v) =
      ohDashToNg u ++ 'n' :: 'g' :: '-' :: ohDashToNg v := by
  refine ⟨?_, ?_, ?_, ?_⟩
  · rw [subOhBd_append u.length u _ le_rfl (by simp) hu]
    congr 1
    rw [subOhBd_cons_pos (c := 'o') (r := 'h' :: '#' :: v)
      ⟨rfl, rfl, Or.inl rfl⟩]
    rfl
  · rw [subOhBd_append u.length u _ le_rfl (by simp) hu]
    congr 1
    rw [subOhBd_cons_pos (c := 'o') (r := 'h' :: ' ' :: v)
      ⟨rfl, rfl, Or.inr (Or.inl rfl)⟩]
    rfl
  · rw [subOhBd_append u.length u _ le_rfl (by simp) hu]
    congr 1
  · rw [ohDash_append u.length u _ le_rfl (by simp)]
    congr 1
    unfold ohDashToNg
    rw [subLit_cons_pos _ (by decide) (by simp [List.isPrefixOf])]
    simp [List.drop]

/-- Witness for C7 with scanned text `"aa"` and remainder `"k0"`. -/
theorem c7_witness :
    (¬ ['o','h'] <:+ (['a','a'] : List Char)) ∧
      (subOhBd (['a','a'] ++ 'o' :: 'h' :: '#' :: ['k','0']) =
        subOhBd ['a','a'] ++ 'n' :: 'g' :: subOhBd ['k','0'] ∧
      subOhBd (['a','a'] ++ 'o' :: 'h' :: ' ' :: ['k','0']) =
        subOhBd ['a','a'] ++ 'n' :: 'g' :: subOhBd ['k','0'] ∧
      subOhBd (['a','a'] ++ ['o','h']) = subOhBd ['a','a'] ++ ['n','g'] ∧
      ohDashToNg (['a','a'] ++ 'o' :: 'h' :: '-' :: ['k','0']) =
        ohDashToNg ['a','a'] ++ 'n' :: 'g' :: '-' :: ohDashToNg ['k','0']) :=
  ⟨by decide, c7_amended ['a','a'] ['k','0'] (by decide)⟩

/-! ### Claim C10: no `-oh` artifact survives `graph2phone` -/

theorem pfx_head {x : Char} {xs t : List Char} (h : (x :: xs) <+: t) :
    t.head? = some x := by
  obtain ⟨w, hw⟩ := h
  rw [← hw]
  simp

theorem inf_len3 {t : List Char} (h : dashOh <:+: t) : 3 ≤ t.length := by
  have hx := h.length_le
  simpa [dashOh] using hx

theorem not_inf_of_short {t : List Char} (h : t.length < 3) :
    ¬ dashOh <:+: t := fun hx => absurd (inf_len3 hx) (by omega)

theorem inf_dash_mem {t : List Char} (h : dashOh <:+: t) : '-' ∈ t :=
  List.IsInfix.mem (by simp [dashOh]) h

theorem not_inf_of_no_dash {t : List Char} (h : '-' ∉ t) : ¬ dashOh <:+: t :=
  fun hx => h (inf_dash_mem hx)

theorem nd_cons {c : Char} {X : List Char} (h1 : ¬ dashOh <+: (c :: X))
    (h2 : ¬ dashOh <:+: X) : ¬ dashOh <:+: (c :: X) := by
  intro hx
  rcases List.infix_cons_iff.mp hx with h | h
  · exact h1 h
  · exact h2 h

theorem nd_tail {c : Char} {X : List Char} (h : ¬ dashOh <:+: (c :: X)) :
    ¬ dashOh <:+: X := fun hx => h (List.infix_cons_iff.mpr (Or.inr hx))

theorem nd_append {a b : List Char} (ha : ¬ dashOh <:+: a)
    (hb : ¬ dashOh <:+: b) (hbh : headOk b) : ¬ dashOh <:+: a ++ b := by
  intro hx
  rcases dashOh_infix_append hx with h | h | ⟨_, hp⟩ | ⟨_, hp⟩
  · exact ha h
  · exact hb h
  · have hhd := pfx_head hp
    rcases hbh with rfl | h' | h' <;> simp_all
  · have hhd := pfx_head hp
    rcases hbh with rfl | h' | h' <;> simp_all

theorem head?_append_left {a b : List Char} (h : a ≠ []) :
    (a ++ b).head? = a.head? := by
  cases a with
  | nil => exact absurd rfl h
  | cons c cs => simp

theorem headOk_append {a b : List Char} (ha : headOk a) (hb : headOk b) :
    headOk (a ++ b) := by
  rcases ha with rfl | h | h
  · simpa using hb
  · right; left; rw [head?_append_left (by rintro rfl; simp at h)]; exact h
  · right; right; rw [head?_append_left (by rintro rfl; simp at h)]; exact h

theorem head?_take2 (b : List Char) : (b.take 2).head? = b.head? := by
  cases b <;> simp

theorem nd_append_take2 {a b : List Char} (ha : ¬ dashOh <:+: a)
    (hbh : headOk b) : ¬ dashOh <:+: a ++ b.take 2 := by
  apply nd_append ha (not_inf_of_short ?_) ?_
  · have := List.length_take 2 b
    omega
  · rcases hbh with rfl | h | h
    · left; rfl
    · right; left; rw [head?_take2]; exact h
    · right; right; rw [head?_take2]; exact h

theorem two_char_oh {a r : List Char} (ha : a.length = 2) :
    ['o','h'] <+: a ++ r ↔ a = ['o','h'] := by
  rcases a with _ | ⟨x, a⟩
  · simp at ha
  rcases a with _ | ⟨y, a⟩
  · simp at ha
  rcases a with _ | ⟨z, a⟩
  · constructor
    · rintro ⟨w, hw⟩
      simp only [List.cons_append, List.nil_append, List.cons.injEq] at hw
      obtain ⟨rfl, rfl, _⟩ := hw
      rfl
    · intro hx
      rw [hx]
      exact ⟨r, rfl⟩
  · simp at ha

theorem ons_len : ∀ i < 19, (ONS.getD i []).length = 2 := by decide

theorem ons_no_dash : ∀ i < 19, '-' ∉ ONS.getD i [] := by decide

theorem nuc_len : ∀ i < 21, (NUC.getD i []).length = 2 := by decide

theorem nuc_no_dash : ∀ i < 21, '-' ∉ NUC.getD i [] := by decide

theorem nuc_ne_oh : ∀ i < 21, NUC.getD i [] ≠ ['o','h'] := by decide

theorem cod_no_dash : ∀ i < 28, '-' ∉ COD.getD i [] := by decide

theorem hangul_idx_bounds (c : Nat) (h1 : 44032 ≤ c) (h2 : c ≤ 55203) :
    iONS c - 1 < 19 ∧ iNUC c - 1 < 21 ∧ iCOD c - 1 < 28 := by
  unfold iONS iNUC iCOD
  omega

theorem hangul_no_dash (c : Nat) (h1 : 44032 ≤ c) (h2 : c ≤ 55203) :
    '-' ∉ sylOns c ++ sylNuc c ++ sylCod c ∧ '-' ∉ sylNuc c ++ sylCod c := by
  obtain ⟨hon, hnu, hco⟩ := hangul_idx_bounds c h1 h2
  have hdon : '-' ∉ sylOns c := ons_no_dash _ hon
  have hdnu : '-' ∉ sylNuc c := nuc_no_dash _ hnu
  have hdco : '-' ∉ sylCod c := cod_no_dash _ hco
  constructor
  · intro hm
    rcases List.mem_append.mp hm with hm | hm
    · rcases List.mem_append.mp hm with hm | hm
      · exact hdon hm
      · exact hdnu hm
    · exact hdco hm
  · intro hm
    rcases List.mem_append.mp hm with hm | hm
    · exact hdnu hm
    · exact hdco hm

theorem append_oh (a b : List Char) :
    (['o','h'] ++ a) ++ b = 'o' :: 'h' :: (a ++ b) := rfl

theorem sylEmit_expand_oh (c : Nat) (hoh : sylOns c = ['o','h']) :
    sylEmit c = '-' :: ('o' :: 'h' :: (sylNuc c ++ sylCod c)) := by
  have h1 : sylEmit c = '-' :: (sylOns c ++ sylNuc c ++ sylCod c) := rfl
  rw [h1, hoh, append_oh]

theorem sylEmit_subLit_oh (c : Nat)
    (hemit : sylEmit c = '-' :: ('o' :: 'h' :: (sylNuc c ++ sylCod c)))
    (hdnc : '-' ∉ sylNuc c ++ sylCod c) :
    subLit dashOh ['-'] (sylEmit c) = '-' :: (sylNuc c ++ sylCod c) := by
  rw [hemit]
  rw [subLit_cons_pos _ (by simp [dashOh])
    (pfx_isPrefixOf ⟨sylNuc c ++ sylCod c, by simp [dashOh]⟩)]
  have hdrop : ('o' :: 'h' :: (sylNuc c ++ sylCod c)).drop
      (dashOh.length - 1) = sylNuc c ++ sylCod c := by
    simp [dashOh]
  rw [hdrop, subLit_eq_self (not_inf_of_no_dash hdnc)]
  rfl

theorem nuc_cod_not_oh (c : Nat) (hnu : iNUC c - 1 < 21) :
    ¬ ['o','h'] <+: sylNuc c ++ sylCod c := by
  have hlnu : (sylNuc c).length = 2 := nuc_len _ hnu
  rw [two_char_oh hlnu]
  exact nuc_ne_oh _ hnu

theorem sylEmit_no_match (c : Nat) (hlon : (sylOns c).length = 2)
    (hoh : sylOns c ≠ ['o','h']) : ¬ dashOh.isPrefixOf (sylEmit c) := by
  intro hp
  obtain ⟨w, hw⟩ := isPrefixOf_pfx hp
  replace hw : dashOh ++ w =
    '-' :: (sylOns c ++ sylNuc c ++ sylCod c) := hw
  simp only [dashOh, List.cons_append, List.nil_append,
    List.cons.injEq, true_and] at hw
  apply hoh
  have hpre : ['o','h'] <+: sylOns c ++ sylNuc c ++ sylCod c := ⟨w, hw⟩
  rw [List.append_assoc] at hpre
  exact (two_char_oh hlon).mp hpre

theorem sylEmit_subLit_not (c : Nat)
    (hnm : ¬ dashOh.isPrefixOf (sylEmit c))
    (hdbody : '-' ∉ sylOns c ++ sylNuc c ++ sylCod c) :
    subLit dashOh ['-'] (sylEmit c) =
      '-' :: (sylOns c ++ sylNuc c ++ sylCod c) := by
  show subLit dashOh ['-']
    ('-' :: (sylOns c ++ sylNuc c ++ sylCod c)) = _
  rw [subLit_cons_neg _ (by rintro ⟨_, hp⟩; exact hnm hp)]
  rw [subLit_eq_self (not_inf_of_no_dash hdbody)]

theorem body_not_oh (c : Nat) (hlon : (sylOns c).length = 2)
    (hoh : sylOns c ≠ ['o','h']) :
    ¬ ['o','h'] <+: sylOns c ++ sylNuc c ++ sylCod c := by
  intro hpre
  apply hoh
  rw [List.append_assoc] at hpre
  exact (two_char_oh hlon).mp hpre

theorem sylEmit_clean (c : Nat) (h1 : 44032 ≤ c) (h2 : c ≤ 55203) :
    ∃ w, subLit dashOh ['-'] (sylEmit c) = '-' :: w ∧ '-' ∉ w ∧
      ¬ ['o','h'] <+: w := by
  obtain ⟨hon, hnu, hco⟩ := hangul_idx_bounds c h1 h2
  by_cases hoh : sylOns c = ['o','h']
  · exact ⟨sylNuc c ++ sylCod c,
      sylEmit_subLit_oh c (sylEmit_expand_oh c hoh) (hangul_no_dash c h1 h2).2,
      (hangul_no_dash c h1 h2).2, nuc_cod_not_oh c hnu⟩
  · exact ⟨sylOns c ++ sylNuc c ++ sylCod c,
      sylEmit_subLit_not c (sylEmit_no_match c (ons_len _ hon) hoh)
        (hangul_no_dash c h1 h2).1,
      (hangul_no_dash c h1 h2).1, body_not_oh c (ons_len _ hon) hoh⟩

theorem buildStep (ph : List Char) (c : Nat) (hnd : ¬ dashOh <:+: ph)
    (hh : headOk ph) :
    ¬ dashOh <:+: subLit dashOh ['-'] (ph ++ charEmit c) ∧
      headOk (subLit dashOh ['-'] (ph ++ charEmit c)) := by
  unfold charEmit
  by_cases h32 : c = 32
  · rw [if_pos h32]
    have hx : ¬ dashOh <:+: ph ++ ['#'] :=
      nd_append hnd (not_inf_of_short (by simp)) (Or.inr (Or.inr rfl))
    rw [subLit_eq_self hx]
    exact ⟨hx, headOk_append hh (Or.inr (Or.inr rfl))⟩
  · rw [if_neg h32]
    by_cases hhan : 44032 ≤ c ∧ c ≤ 55203
    · rw [if_pos hhan]
      obtain ⟨w, hw, hwd, hwoh⟩ := sylEmit_clean c hhan.1 hhan.2
      have hndw : ¬ dashOh <:+: ('-' :: w) := by
        apply nd_cons
        · rintro ⟨u, hu⟩
          simp only [dashOh, List.cons_append, List.nil_append,
            List.cons.injEq, true_and] at hu
          exact hwoh ⟨u, hu⟩
        · exact not_inf_of_no_dash hwd
      have hsplit : subLit dashOh ['-'] (ph ++ sylEmit c) =
          ph ++ subLit dashOh ['-'] (sylEmit c) := by
        apply subLit_append_left
        exact nd_append_take2 hnd (Or.inr (Or.inl rfl))
      rw [hsplit, hw]
      constructor
      · exact nd_append hnd hndw (Or.inr (Or.inl rfl))
      · exact headOk_append hh (Or.inr (Or.inl rfl))
    · rw [if_neg hhan, List.append_nil, subLit_eq_self hnd]
      exact ⟨hnd, hh⟩

theorem buildGo_invariant : ∀ (g : List Nat) (ph : List Char),
    ¬ dashOh <:+: ph → headOk ph →
    ¬ dashOh <:+: buildGo g ph ∧ headOk (buildGo g ph) := by
  intro g
  induction g with
  | nil => intro ph h1 h2; exact ⟨h1, h2⟩
  | cons c g ih =>
    intro ph h1 h2
    obtain ⟨h1', h2'⟩ := buildStep ph c h1 h2
    exact ih _ h1' h2'

theorem buildPhones_invariant (g : List Nat) :
    ¬ dashOh <:+: buildPhones g ∧ headOk (buildPhones g) :=
  buildGo_invariant g [] (not_inf_of_short (by simp)) (Or.inl rfl)

/-! #### Cleanup-stage preservation lemmas

Each post-walk cleanup stage of `graph2phone` neither contains nor creates a
`"-oh"` substring, and a result beginning with `"oh"` reflects to an input
beginning with `"oh"`. -/

theorem headOk_np {s : List Char} (h : headOk s) : ¬ ['o','h'] <+: s := by
  intro hp
  have hh := pfx_head hp
  rcases h with rfl | h' | h' <;> simp_all

theorem stripOhHead_id {s : List Char} (h : ¬ ['o','h'] <+: s) :
    stripOhHead s = s := by
  unfold stripOhHead
  exact if_neg (fun hp => h (isPrefixOf_pfx hp))

theorem nd_cons_ne {c : Char} {X : List Char} (hc : c ≠ '-')
    (h2 : ¬ dashOh <:+: X) : ¬ dashOh <:+: (c :: X) := by
  refine nd_cons ?_ h2
  intro hp
  have hh := pfx_head hp
  simp only [List.head?_cons, Option.some.injEq] at hh
  exact hc hh

theorem nd_tail2 {X : List Char} (h : ¬ dashOh <:+: X) :
    ¬ dashOh <:+: X.tail := by
  cases X with
  | nil => exact h
  | cons c Y => exact nd_tail h

theorem sfx_single_cons {x c : Char} {X : List Char} (h : [x] <:+ (c :: X)) :
    (c = x ∧ X = []) ∨ [x] <:+ X := by
  obtain ⟨t, ht⟩ := h
  cases t with
  | nil =>
    simp only [List.nil_append] at ht
    simp only [List.cons.injEq] at ht
    exact Or.inl ⟨ht.1.symm, ht.2.symm⟩
  | cons a t2 =>
    right
    simp only [List.cons_append, List.cons.injEq] at ht
    exact ⟨t2, ht.2⟩

theorem remLastDash_sub : ∀ {l : List Char} {x : Char},
    x ∈ remLastDash l → x ∈ l := by
  intro l
  induction l with
  | nil =>
    intro x h
    exact absurd h (by simp [remLastDash])
  | cons c cs ih =>
    intro x h
    have he : remLastDash (c :: cs) =
        if '-' ∈ cs then c :: remLastDash cs
        else if c = '-' then cs else c :: cs := rfl
    rw [he] at h
    by_cases hm : '-' ∈ cs
    · rw [if_pos hm] at h
      rcases List.mem_cons.mp h with rfl | h2
      · exact List.mem_cons_self _ _
      · exact List.mem_cons_of_mem _ (ih h2)
    · rw [if_neg hm] at h
      by_cases hc : c = '-'
      · rw [if_pos hc] at h
        exact List.mem_cons_of_mem _ h
      · rw [if_neg hc] at h
        exact h

theorem remLastDash_nil {cs : List Char} (h : remLastDash cs = [])
    (hm : '-' ∈ cs) : cs = ['-'] := by
  cases cs with
  | nil => simp at hm
  | cons d ds =>
    have he : remLastDash (d :: ds) =
        if '-' ∈ ds then d :: remLastDash ds
        else if d = '-' then ds else d :: ds := rfl
    rw [he] at h
    by_cases hm2 : '-' ∈ ds
    · rw [if_pos hm2] at h
      simp at h
    · by_cases hd : d = '-'
      · rw [if_neg hm2, if_pos hd] at h
        subst h
        rw [hd]
      · rw [if_neg hm2, if_neg hd] at h
        simp at h

theorem remLastDash_last : ∀ {l : List Char},
    ['-'] <:+ remLastDash l → ['-'] <:+ l := by
  intro l
  induction l with
  | nil => intro h; exact h
  | cons c cs ih =>
    intro h
    have he : remLastDash (c :: cs) =
        if '-' ∈ cs then c :: remLastDash cs
        else if c = '-' then cs else c :: cs := rfl
    rw [he] at h
    by_cases hm : '-' ∈ cs
    · rw [if_pos hm] at h
      rcases sfx_single_cons h with ⟨hc, hnil⟩ | ht
      · have hcs : cs = ['-'] := remLastDash_nil hnil hm
        subst hcs
        exact ⟨[c], rfl⟩
      · obtain ⟨t, htt⟩ := ih ht
        exact ⟨c :: t, by rw [List.cons_append, htt]⟩
    · by_cases hc : c = '-'
      · rw [if_neg hm, if_pos hc] at h
        exact absurd (List.IsInfix.mem (by simp) (sfxInf h)) hm
      · rw [if_neg hm, if_neg hc] at h
        exact h

theorem runFix_sub {l : List Char} {x : Char} (h : x ∈ runFix l) : x ∈ l := by
  cases l with
  | nil => exact h
  | cons c rest =>
    have he : runFix (c :: rest) =
        if '-' ∈ rest then c :: remLastDash rest else c :: rest := rfl
    rw [he] at h
    by_cases hm : '-' ∈ rest
    · rw [if_pos hm] at h
      rcases List.mem_cons.mp h with rfl | h2
      · exact List.mem_cons_self _ _
      · exact List.mem_cons_of_mem _ (remLastDash_sub h2)
    · rw [if_neg hm] at h
      exact h

theorem runFix_last {l : List Char} (h : ['-'] <:+ runFix l) :
    ['-'] <:+ l := by
  cases l with
  | nil => exact h
  | cons c rest =>
    have he : runFix (c :: rest) =
        if '-' ∈ rest then c :: remLastDash rest else c :: rest := rfl
    rw [he] at h
    by_cases hm : '-' ∈ rest
    · rw [if_pos hm] at h
      rcases sfx_single_cons h with ⟨hc, hnil⟩ | ht
      · have hr : rest = ['-'] := remLastDash_nil hnil hm
        subst hr
        exact ⟨[c], rfl⟩
      · obtain ⟨t, htt⟩ := remLastDash_last ht
        exact ⟨c :: t, by rw [List.cons_append, htt]⟩
    · rw [if_neg hm] at h
      exact h

theorem runFix_head (c : Char) (rest : List Char) :
    ∃ X, runFix (c :: rest) = c :: X := by
  have he : runFix (c :: rest) =
      if '-' ∈ rest then c :: remLastDash rest else c :: rest := rfl
  rw [he]
  by_cases hm : '-' ∈ rest
  · exact ⟨remLastDash rest, if_pos hm⟩
  · exact ⟨rest, if_neg hm⟩

theorem ohDash_cons_pos (w : List Char) :
    ohDashToNg ('o' :: 'h' :: '-' :: w) = 'n' :: 'g' :: '-' :: ohDashToNg w := by
  show subLit ['o','h','-'] ['n','g','-'] ('o' :: 'h' :: '-' :: w) = _
  rw [subLit_cons_pos _ (by simp) (by simp [List.isPrefixOf])]
  rfl

theorem ohDash_cons_neg {c : Char} {cs : List Char}
    (h : ¬ (['o','h','-'] : List Char).isPrefixOf (c :: cs)) :
    ohDashToNg (c :: cs) = c :: ohDashToNg cs := by
  show subLit ['o','h','-'] ['n','g','-'] (c :: cs) =
    c :: subLit ['o','h','-'] ['n','g','-'] cs
  exact subLit_cons_neg _ (fun hx => h hx.2)

theorem ohDash_head (s : List Char) :
    (ohDashToNg s).head? = s.head? ∨ (ohDashToNg s).head? = some 'n' := by
  cases s with
  | nil => left; rfl
  | cons c cs =>
    by_cases h : (['o','h','-'] : List Char).isPrefixOf (c :: cs)
    · right
      obtain ⟨w, hw⟩ := isPrefixOf_pfx h
      simp only [List.cons_append, List.nil_append, List.cons.injEq] at hw
      obtain ⟨h1, h2⟩ := hw
      subst h1
      subst h2
      rw [ohDash_cons_pos w]
      rfl
    · left
      rw [ohDash_cons_neg h]
      rfl

theorem ohDash_nd : ∀ (n : Nat) (s : List Char), s.length ≤ n →
    ¬ dashOh <:+: s →
    ¬ dashOh <:+: ohDashToNg s ∧
      (['o','h'] <+: ohDashToNg s → ['o','h'] <+: s) := by
  intro n
  induction n with
  | zero =>
    intro s hl _
    have hs : s = [] := List.length_eq_zero.mp (Nat.le_zero.mp hl)
    subst hs
    have h0 : ohDashToNg ([] : List Char) = [] := rfl
    rw [h0]
    refine ⟨not_inf_of_short (by simp), ?_⟩
    intro hp
    exact absurd hp.length_le (by simp)
  | succ n ih =>
    intro s hl hnd
    cases s with
    | nil =>
      have h0 : ohDashToNg ([] : List Char) = [] := rfl
      rw [h0]
      refine ⟨not_inf_of_short (by simp), ?_⟩
      intro hp
      exact absurd hp.length_le (by simp)
    | cons c cs =>
      by_cases hm : (['o','h','-'] : List Char).isPrefixOf (c :: cs)
      · obtain ⟨w, hw⟩ := isPrefixOf_pfx hm
        simp only [List.cons_append, List.nil_append, List.cons.injEq] at hw
        obtain ⟨h1, h2⟩ := hw
        subst h1
        subst h2
        have hlw : w.length ≤ n := by
          simp only [List.length_cons] at hl
          omega
        have hndw : ¬ dashOh <:+: w := nd_tail (nd_tail (nd_tail hnd))
        obtain ⟨ih1, ih2⟩ := ih w hlw hndw
        have hnpw : ¬ ['o','h'] <+: w := by
          intro hp
          obtain ⟨u, hu⟩ := hp
          apply hnd
          refine List.IsInfix.trans (pfxInf ⟨u, ?_⟩) (sfxInf ⟨['o','h'], rfl⟩)
          rw [← hu]
          rfl
        rw [ohDash_cons_pos w]
        constructor
        · refine nd_cons_ne (by decide) (nd_cons_ne (by decide) (nd_cons ?_ ih1))
          intro hp
          obtain ⟨u, hu⟩ := hp
          simp only [dashOh, List.cons_append, List.nil_append,
            List.cons.injEq, true_and] at hu
          exact hnpw (ih2 ⟨u, hu⟩)
        · intro hp
          have hh := pfx_head hp
          simp only [List.head?_cons, Option.some.injEq] at hh
          exact absurd hh (by decide)
      · rw [ohDash_cons_neg hm]
        have hlcs : cs.length ≤ n := by
          simp only [List.length_cons] at hl
          omega
        obtain ⟨ih1, ih2⟩ := ih cs hlcs (nd_tail hnd)
        constructor
        · refine nd_cons ?_ ih1
          intro hp
          obtain ⟨u, hu⟩ := hp
          simp only [dashOh, List.cons_append, List.nil_append,
            List.cons.injEq] at hu
          obtain ⟨hc, hu2⟩ := hu
          obtain ⟨v, hv⟩ := ih2 ⟨u, hu2⟩
          apply hnd
          refine pfxInf ⟨v, ?_⟩
          rw [← hc, ← hv]
          rfl
        · intro hp
          obtain ⟨u, hu⟩ := hp
          simp only [List.cons_append, List.nil_append, List.cons.injEq] at hu
          obtain ⟨hc, hu2⟩ := hu
          subst hc
          rcases ohDash_head cs with hh | hh
          · rw [← hu2] at hh
            simp only [List.head?_cons] at hh
            cases cs with
            | nil => simp at hh
            | cons d ds =>
              simp only [List.head?_cons, Option.some.injEq] at hh
              subst hh
              exact ⟨ds, rfl⟩
          · rw [← hu2] at hh
            simp only [List.head?_cons, Option.some.injEq] at hh
            exact absurd hh (by decide)

theorem subOhBd_head (s : List Char) :
    (subOhBd s).head? = s.head? ∨ (subOhBd s).head? = some 'n' := by
  cases s with
  | nil => left; rfl
  | cons c r =>
    by_cases h : ohBdHere c r
    · right
      rw [subOhBd_cons_pos h]
      rfl
    · left
      rw [subOhBd_cons_neg h]
      rfl

theorem subOhBd_nd : ∀ (n : Nat) (s : List Char), s.length ≤ n →
    ¬ dashOh <:+: s →
    ¬ dashOh <:+: subOhBd s ∧ (['o','h'] <+: subOhBd s → ['o','h'] <+: s) := by
  intro n
  induction n with
  | zero =>
    intro s hl _
    have hs : s = [] := List.length_eq_zero.mp (Nat.le_zero.mp hl)
    subst hs
    have h0 : subOhBd ([] : List Char) = [] := rfl
    rw [h0]
    refine ⟨not_inf_of_short (by simp), ?_⟩
    intro hp
    exact absurd hp.length_le (by simp)
  | succ n ih =>
    intro s hl hnd
    cases s with
    | nil =>
      have h0 : subOhBd ([] : List Char) = [] := rfl
      rw [h0]
      refine ⟨not_inf_of_short (by simp), ?_⟩
      intro hp
      exact absurd hp.length_le (by simp)
    | cons c r =>
      simp only [List.length_cons] at hl
      by_cases hb : ohBdHere c r
      · rw [subOhBd_cons_pos hb]
        have hnd2 : ¬ dashOh <:+: r.tail.tail := nd_tail2 (nd_tail2 (nd_tail hnd))
        have hl2 : r.tail.tail.length ≤ n := by
          have t1 := List.length_tail r
          have t2 := List.length_tail r.tail
          omega
        obtain ⟨ih1, _⟩ := ih r.tail.tail hl2 hnd2
        constructor
        · exact nd_cons_ne (by decide) (nd_cons_ne (by decide) ih1)
        · intro hp
          have hh := pfx_head hp
          simp only [List.head?_cons, Option.some.injEq] at hh
          exact absurd hh (by decide)
      · rw [subOhBd_cons_neg hb]
        obtain ⟨ih1, ih2⟩ := ih r (by omega) (nd_tail hnd)
        constructor
        · refine nd_cons ?_ ih1
          intro hp
          obtain ⟨u, hu⟩ := hp
          simp only [dashOh, List.cons_append, List.nil_append,
            List.cons.injEq] at hu
          obtain ⟨hc, hu2⟩ := hu
          obtain ⟨v, hv⟩ := ih2 ⟨u, hu2⟩
          apply hnd
          refine pfxInf ⟨v, ?_⟩
          rw [← hc, ← hv]
          rfl
        · intro hp
          obtain ⟨u, hu⟩ := hp
          simp only [List.cons_append, List.nil_append, List.cons.injEq] at hu
          obtain ⟨hc, hu2⟩ := hu
          subst hc
          rcases subOhBd_head r with hh | hh
          · rw [← hu2] at hh
            simp only [List.head?_cons] at hh
            cases r with
            | nil => simp at hh
            | cons d ds =>
              simp only [List.head?_cons, Option.some.injEq] at hh
              subst hh
              exact ⟨ds, rfl⟩
          · rw [← hu2] at hh
            simp only [List.head?_cons, Option.some.injEq] at hh
            exact absurd hh (by decide)

theorem sub332Go_succ (f : Nat) (c : Char) (cs : List Char) :
    sub332Go (f+1) (c :: cs) =
      if isWordChar c then c :: sub332Go f cs
      else runFix ((c :: cs).takeWhile (fun x => !isWordChar x)) ++
        sub332Go f ((c :: cs).dropWhile (fun x => !isWordChar x)) := rfl

theorem sub332Go_head : ∀ (f : Nat) (s : List Char),
    (sub332Go f s).head? = s.head? := by
  intro f s
  cases f with
  | zero => cases s <;> rfl
  | succ f =>
    cases s with
    | nil => rfl
    | cons c cs =>
      rw [sub332Go_succ]
      by_cases hw : isWordChar c
      · rw [if_pos hw]
        rfl
      · rw [if_neg hw]
        rw [List.takeWhile_cons_of_pos (p := fun x => !isWordChar x)
          (by simp [hw])]
        obtain ⟨X, hX⟩ := runFix_head c (cs.takeWhile (fun x => !isWordChar x))
        rw [hX]
        rfl

theorem sub332Go_nd : ∀ (f : Nat) (s : List Char), s.length ≤ f →
    ¬ dashOh <:+: s →
    ¬ dashOh <:+: sub332Go f s ∧
      (['o','h'] <+: sub332Go f s → ['o','h'] <+: s) := by
  intro f
  induction f with
  | zero =>
    intro s hl _
    have hs : s = [] := List.length_eq_zero.mp (Nat.le_zero.mp hl)
    subst hs
    have h0 : sub332Go 0 ([] : List Char) = [] := rfl
    rw [h0]
    refine ⟨not_inf_of_short (by simp), ?_⟩
    intro hp
    exact absurd hp.length_le (by simp)
  | succ f ih =>
    intro s hl hnd
    cases s with
    | nil =>
      have h0 : sub332Go (f+1) ([] : List Char) = [] := rfl
      rw [h0]
      refine ⟨not_inf_of_short (by simp), ?_⟩
      intro hp
      exact absurd hp.length_le (by simp)
    | cons c cs =>
      simp only [List.length_cons] at hl
      rw [sub332Go_succ]
      by_cases hw : isWordChar c
      · rw [if_pos hw]
        obtain ⟨ih1, ih2⟩ := ih cs (by omega) (nd_tail hnd)
        constructor
        · refine nd_cons_ne (fun hc => ?_) ih1
          rw [hc] at hw
          exact absurd hw (by decide)
        · intro hp
          obtain ⟨u, hu⟩ := hp
          simp only [List.cons_append, List.nil_append, List.cons.injEq] at hu
          obtain ⟨hc, hu2⟩ := hu
          subst hc
          have hh := sub332Go_head f cs
          rw [← hu2] at hh
          simp only [List.head?_cons] at hh
          cases cs with
          | nil => simp at hh
          | cons d ds =>
            simp only [List.head?_cons, Option.some.injEq] at hh
            subst hh
            exact ⟨ds, rfl⟩
      · rw [if_neg hw]
        have hpc : (fun x => !isWordChar x) c = true := by simp [hw]
        have hdW : (c :: cs).dropWhile (fun x => !isWordChar x) =
            cs.dropWhile (fun x => !isWordChar x) :=
          List.dropWhile_cons_of_pos (p := fun x => !isWordChar x) (by simp [hw])
        have hlen : ((c :: cs).dropWhile (fun x => !isWordChar x)).length ≤ f := by
          rw [hdW]
          exact le_trans (List.dropWhile_suffix _).length_le (by omega)
        have hndT : ¬ dashOh <:+: (c :: cs).dropWhile (fun x => !isWordChar x) := by
          intro hx
          exact hnd (hx.trans (sfxInf (List.dropWhile_suffix _)))
        obtain ⟨ih1, ih2⟩ := ih _ hlen hndT
        have hmemT : ∀ x ∈ runFix ((c :: cs).takeWhile (fun y => !isWordChar y)),
            isWordChar x = false := by
          intro x hx
          have hx2 := runFix_sub hx
          have hx3 := List.mem_takeWhile_imp hx2
          simpa using hx3
        constructor
        · intro hx
          rcases dashOh_infix_append hx with h1 | h1 | ⟨hsfx, hpfx⟩ | ⟨hsfx, hpfx⟩
          · have ho : 'o' ∈ runFix ((c :: cs).takeWhile (fun x => !isWordChar x)) :=
              List.IsInfix.mem (by simp [dashOh]) h1
            exact absurd (hmemT 'o' ho) (by decide)
          · exact ih1 h1
          · have h1' := runFix_last hsfx
            have h2' := ih2 hpfx
            obtain ⟨R0, hR0⟩ := h1'
            obtain ⟨u, hu⟩ := h2'
            apply hnd
            refine ⟨R0, u, ?_⟩
            have hfull : (R0 ++ ['-']) ++ (['o','h'] ++ u) = c :: cs := by
              rw [hR0, hu]
              exact List.takeWhile_append_dropWhile _ _
            rw [← hfull]
            simp [dashOh, List.append_assoc]
          · have ho : 'o' ∈ runFix ((c :: cs).takeWhile (fun x => !isWordChar x)) :=
              List.IsInfix.mem (by simp) (sfxInf hsfx)
            exact absurd (hmemT 'o' ho) (by decide)
        · intro hp
          rw [List.takeWhile_cons_of_pos (p := fun x => !isWordChar x)
            (by simp [hw])] at hp
          obtain ⟨X, hX⟩ := runFix_head c (cs.takeWhile (fun x => !isWordChar x))
          rw [hX] at hp
          have hh := pfx_head hp
          simp only [List.cons_append, List.head?_cons, Option.some.injEq] at hh
          subst hh
          exact absurd (by decide : isWordChar 'o' = true) hw

theorem sub332_nd (s : List Char) (hnd : ¬ dashOh <:+: s) :
    ¬ dashOh <:+: sub332 s ∧ (['o','h'] <+: sub332 s → ['o','h'] <+: s) :=
  sub332Go_nd s.length s le_rfl hnd

theorem stripTrailingW_pfx (s : List Char) : stripTrailingW s <+: s := by
  have hsf : s.reverse.dropWhile (fun c => !isWordChar c) <:+ s.reverse :=
    List.dropWhile_suffix _
  obtain ⟨u, hu⟩ := hsf
  refine ⟨u.reverse, ?_⟩
  show (s.reverse.dropWhile (fun c => !isWordChar c)).reverse ++ u.reverse = s
  rw [← List.reverse_append, hu, List.reverse_reverse]

theorem stripDash_nd {t : List Char} (h1 : ¬ dashOh <:+: t)
    (h2 : ¬ ['o','h'] <+: t) :
    ¬ dashOh <:+: stripDashHead t ∧ ¬ ['o','h'] <+: stripDashHead t := by
  unfold stripDashHead
  by_cases hd : t.head? = some '-'
  · rw [if_pos hd]
    cases t with
    | nil => simp at hd
    | cons c r =>
      simp only [List.head?_cons, Option.some.injEq] at hd
      subst hd
      refine ⟨nd_tail h1, ?_⟩
      intro hp
      obtain ⟨u, hu⟩ := hp
      apply h1
      refine pfxInf ⟨u, ?_⟩
      exact congrArg (List.cons '-') hu
  · rw [if_neg hd]
    exact ⟨h1, h2⟩

/-- C10: for every input, the phone string returned by `graph2phone` never
contains the substring `"-oh"` and never begins with `"oh"`: every
syllable-initial null-onset code emitted by the decomposer is eliminated
(in the walk by `re.sub("-(oh)", "-")` and in the cleanup lines 324-329)
before the function returns. -/
theorem c10_no_oh_artifacts (g : List Nat) :
    ¬ dashOh <:+: graph2phone g ∧ ¬ ['o','h'] <+: graph2phone g := by
  obtain ⟨h0, hh0⟩ := buildPhones_invariant g
  have hnp0 : ¬ ['o','h'] <+: buildPhones g := headOk_np hh0
  have e1 : stripOhHead (buildPhones g) = buildPhones g := stripOhHead_id hnp0
  have e2 : delDashOh (buildPhones g) = buildPhones g := subLit_eq_self h0
  obtain ⟨h3, r3⟩ := ohDash_nd (buildPhones g).length (buildPhones g) le_rfl h0
  have np3 : ¬ ['o','h'] <+: ohDashToNg (buildPhones g) :=
    fun hp => hnp0 (r3 hp)
  obtain ⟨h4, r4⟩ :=
    subOhBd_nd (ohDashToNg (buildPhones g)).length _ le_rfl h3
  have np4 : ¬ ['o','h'] <+: subOhBd (ohDashToNg (buildPhones g)) :=
    fun hp => np3 (r4 hp)
  obtain ⟨h5, r5⟩ := sub332_nd _ h4
  have np5 : ¬ ['o','h'] <+: sub332 (subOhBd (ohDashToNg (buildPhones g))) :=
    fun hp => np4 (r5 hp)
  have hpfx6 := stripTrailingW_pfx (sub332 (subOhBd (ohDashToNg (buildPhones g))))
  have h6 : ¬ dashOh <:+:
      stripTrailingW (sub332 (subOhBd (ohDashToNg (buildPhones g)))) :=
    fun hx => h5 (hx.trans (pfxInf hpfx6))
  have np6 : ¬ ['o','h'] <+:
      stripTrailingW (sub332 (subOhBd (ohDashToNg (buildPhones g)))) :=
    fun hp => np5 (hp.trans hpfx6)
  have e : graph2phone g = stripDashHead
      (stripTrailingW (sub332 (subOhBd (ohDashToNg (buildPhones g))))) := by
    show stripDashHead (stripTrailingW (sub332 (subOhBd (ohDashToNg
      (delDashOh (stripOhHead (buildPhones g))))))) = _
    rw [e1, e2]
  rw [e]
  exact stripDash_nd h6 np6
